import Mathlib

/-!
Shallow embedding of the pr-parser repository core (Deno/TypeScript) in Lean 4.

The source functions modelled here are:
  * src/pr-title/mod.ts     : parsePRTitle
  * src/images/mod.ts       : parseFilename, parseImages, parseImagesMarkdown,
                              groupImagesByCategory

Strings are modelled as Lean String / List Char; JavaScript regular
expressions are replaced by explicit scanners that reproduce the exact
backtracking behaviour of the concrete patterns used by the source.
JavaScript Array.prototype.sort with the comparator (a, b) => a.order - b.order
is a stable sort by ascending order (ES2019), modelled by insertion sort.
JavaScript's Map is insertion-ordered and is modelled by an association list
where setting an existing key updates it in place.
-/

namespace PRParser

/-- Timing marker extracted from a filename, as in the TypeScript union
"before" | "after" | "standalone". -/
inductive Timing where
  | before
  | after
  | standalone
deriving DecidableEq, Repr

/-- ImageInfo record from src/types/mod.ts. -/
structure ImageInfo where
  alt : String
  src : String
  category : String
  timing : Timing
  order : Nat
deriving DecidableEq, Repr

/-- Result of parseFilename: ⟨order, timing, formattedAlt⟩. -/
structure ParsedFilename where
  order : Nat
  timing : Timing
  formattedAlt : String
deriving DecidableEq, Repr

/-! ## Character classes (JavaScript semantics) -/

/-- JavaScript whitespace (the class matched by /\s/ and removed by
String.prototype.trim): tab, LF, VT, FF, CR, space, NBSP, Ogham space mark,
the U+2000..U+200A range, LS, PS, NNBSP, MMSP, ideographic space and BOM. -/
def jsWs (c : Char) : Bool :=
  let n := c.toNat
  n == 0x20 || n == 0x09 || n == 0x0A || n == 0x0B || n == 0x0C || n == 0x0D ||
  n == 0xA0 || n == 0x1680 || (0x2000 ≤ n && n ≤ 0x200A) ||
  n == 0x2028 || n == 0x2029 || n == 0x202F || n == 0x205F || n == 0x3000 ||
  n == 0xFEFF

/-- Characters matched by [a-z0-9] under the /i flag. -/
def extChar (c : Char) : Bool := c.isAlphanum

/-- Line terminators, which the JS dot (without the s flag) does not match. -/
def isLineTerm (c : Char) : Bool :=
  let n := c.toNat
  n == 0x0A || n == 0x0D || n == 0x2028 || n == 0x2029

/-- String.prototype.trim on a character list. -/
def trimChars (cs : List Char) : List Char :=
  ((cs.dropWhile jsWs).reverse.dropWhile jsWs).reverse

/-- Value of a run of decimal digits (JS parseInt on an all-digit string). -/
def digitsToNat (ds : List Char) : Nat :=
  ds.foldl (fun n c => 10 * n + (c.toNat - 48)) 0

/-- Case-insensitive comparison of a single pattern character against an input
character, as performed by a /i regex.  For non-letter pattern characters this
is plain equality. -/
def ciChar (p c : Char) : Bool :=
  if p.isAlpha then p.toLower == c.toLower else p == c

/-- Does the input start with the given pattern, compared case-insensitively
character by character (the pattern being a literal of a /i regex)? -/
def startsCI : List Char → List Char → Bool
  | [], _ => true
  | _ :: _, [] => false
  | p :: ps, c :: cs => ciChar p c && startsCI ps cs

/-- Is the first character of the list a JS whitespace character? -/
def headIsWs : List Char → Bool
  | [] => false
  | c :: _ => jsWs c

/-! ## parseFilename (src/images/mod.ts, lines 13-49) -/

/-- The leading-order-prefix step of parseFilename: the JS regex
^(\d+)\.?\s* applied by match and replace.  Returns the parsed order
(0 when there is no leading digit run) and the string with the matched
prefix removed. -/
def stripOrderPre (cs : List Char) : Nat × List Char :=
  let ds := cs.takeWhile Char.isDigit
  if ds = [] then (0, cs)
  else
    let rest := cs.drop ds.length
    let rest' := match rest with
      | '.' :: t => t
      | _ => rest
    (digitsToNat ds, rest'.dropWhile jsWs)

/-- Underscore-to-space normalization step of parseFilename. -/
def underscoresToSpaces (cs : List Char) : List Char :=
  cs.map fun c => if c = '_' then ' ' else c

/-- End-anchored timing-suffix matcher: the JS regex
\s+word(?:\.[a-z0-9]+)?\s*$ with the /i flag, where word is "before" or
"after".  When the regex matches, the code removes the matched span and trims;
the result of that removal-and-trim is returned here.  The match is analysed
from the right: strip trailing whitespace, optionally strip a dot-extension,
require the timing word, require at least one whitespace character before it,
and return the trimmed prefix. -/
def matchTimingSuffix (word : List Char) (y : List Char) : Option (List Char) :=
  let r1 := y.reverse.dropWhile jsWs
  let wrev := word.reverse
  if startsCI wrev r1 && headIsWs (r1.drop word.length) then
    some (trimChars (r1.drop word.length).reverse)
  else
    let ext := r1.takeWhile extChar
    let r2 := r1.drop ext.length
    if ext ≠ [] && r2.head? == some '.' &&
        startsCI wrev (r2.drop 1) && headIsWs ((r2.drop 1).drop word.length) then
      some (trimChars ((r2.drop 1).drop word.length).reverse)
    else none

/-- parseFilename from src/images/mod.ts: strips a numeric order prefix,
converts underscores to spaces, and detects a trailing "before"/"after"
timing word (with optional filename extension). -/
def parseFilename (filename : String) : ParsedFilename :=
  let p := stripOrderPre filename.data
  let normalized := underscoresToSpaces p.2
  match matchTimingSuffix "before".data normalized with
  | some content => ⟨p.1, Timing.before, ⟨content⟩⟩
  | none =>
    match matchTimingSuffix "after".data normalized with
    | some content => ⟨p.1, Timing.after, ⟨content⟩⟩
    | none => ⟨p.1, Timing.standalone, ⟨trimChars normalized⟩⟩

/-! ## parsePRTitle (src/pr-title/mod.ts) -/

theorem lenDropWhile_le (p : Char → Bool) (l : List Char) :
    (l.dropWhile p).length ≤ l.length :=
  (List.dropWhile_suffix p).sublist.length_le

theorem lenDrop_le (n : Nat) (l : List Char) : (l.drop n).length ≤ l.length :=
  (List.drop_sublist n l).length_le

/-- Character scanner for split(/\\s+/): inWs records whether the previous
character belonged to a whitespace run (each maximal run is one separator),
cur accumulates the current word in reverse. -/
def splitWsAux (inWs : Bool) (cur : List Char) : List Char → List (List Char)
  | [] => [cur.reverse]
  | c :: t =>
    if jsWs c then
      if inWs then splitWsAux true [] t
      else cur.reverse :: splitWsAux true [] t
    else splitWsAux false (c :: cur) t

/-- JS String.prototype.split(/\\s+/): the empty string yields [""] (the JS
quirk that makes the words.length === 0 guard of the source unreachable), a
leading whitespace run yields a leading empty word, a trailing run a trailing
empty word, and the maximal whitespace runs separate the words. -/
def splitWsJS (cs : List Char) : List (List Char) :=
  splitWsAux false [] cs

/-- Character scanner collecting the non-empty whitespace-separated words
(cur accumulates the current word in reverse). -/
def wordsNEAux (cur : List Char) : List Char → List (List Char)
  | [] => if cur = [] then [] else [cur.reverse]
  | c :: t =>
    if jsWs c then
      if cur = [] then wordsNEAux [] t
      else cur.reverse :: wordsNEAux [] t
    else wordsNEAux (c :: cur) t

/-- Words of a string obtained by splitting on whitespace runs and dropping
empty tokens (the composition split(/\\s+/) followed by filter(Boolean)). -/
def wordsNE (cs : List Char) : List (List Char) :=
  wordsNEAux [] cs

/-- The /[_-]+/g replacement: each maximal run of underscores and hyphens
becomes a single space (inSep records whether the previous character belonged
to such a run). -/
def collapseSepsAux (inSep : Bool) : List Char → List Char
  | [] => []
  | c :: t =>
    if c = '_' || c = '-' then
      if inSep then collapseSepsAux true t
      else ' ' :: collapseSepsAux true t
    else c :: collapseSepsAux false t

/-- slug.replace(/[_-]+/g, " "). -/
def collapseSeps (cs : List Char) : List Char :=
  collapseSepsAux false cs

/-- Explosion of a slug into feature words:
slug.replace(/[_-]+/g, " ").split(/\s+/).filter(Boolean). -/
def explodeSlug (cs : List Char) : List (List Char) :=
  wordsNE (collapseSeps cs)

/-- The JS regex ^([A-Za-z]+)-(\d+)(?:-[^\/]+)?\/(.+)$ (slash-slug shape).
Backtracking analysis: the letter and digit runs are maximal and cannot be
shortened fruitfully; when the optional group participates its body runs to
the first slash; the final group requires a non-empty remainder free of line
terminators. -/
def slashSlugMatch (cs : List Char) : Option (List Char × List Char × List Char) :=
  let L := cs.takeWhile Char.isAlpha
  if L = [] then none
  else
    match cs.drop L.length with
    | '-' :: r1 =>
      let D := r1.takeWhile Char.isDigit
      if D = [] then none
      else
        match r1.drop D.length with
        | '/' :: t =>
          if t ≠ [] && t.all (fun c => !isLineTerm c) then some (L, D, t) else none
        | '-' :: r2 =>
          let S := r2.takeWhile (fun c => c ≠ '/')
          if S = [] then none
          else
            match r2.drop S.length with
            | '/' :: t =>
              if t ≠ [] && t.all (fun c => !isLineTerm c) then some (L, D, t) else none
            | _ => none
        | _ => none
    | _ => none

/-- The JS regex ^([A-Za-z]+)-(\d+)-(.+)$ (hyphen-slug shape). -/
def hyphenSlugMatch (cs : List Char) : Option (List Char × List Char × List Char) :=
  let L := cs.takeWhile Char.isAlpha
  if L = [] then none
  else
    match cs.drop L.length with
    | '-' :: r1 =>
      let D := r1.takeWhile Char.isDigit
      if D = [] then none
      else
        match r1.drop D.length with
        | '-' :: t =>
          if t ≠ [] && t.all (fun c => !isLineTerm c) then some (L, D, t) else none
        | _ => none
    | _ => none

/-- The word list computed by parsePRTitle after trimming: a slash-slug or
hyphen-slug match contributes ticket prefix, ticket number and the exploded
feature slug; otherwise the trimmed title is split on whitespace. -/
def titleWords (trimmed : List Char) : List (List Char) :=
  match slashSlugMatch trimmed with
  | some (L, D, R) => L :: D :: explodeSlug R
  | none =>
    match hyphenSlugMatch trimmed with
    | some (L, D, R) => L :: D :: explodeSlug R
    | none => splitWsJS trimmed

/-- The test /^\d+$/.test(w): non-empty and all decimal digits. -/
def allDigits (w : List Char) : Bool :=
  w ≠ [] && w.all Char.isDigit

/-- Is position i of the word list a "part N" pair (the loop condition of
parsePRTitle: words[i] lowercases to "part" and words[i+1] is all digits)? -/
def partAt (ws : List (List Char)) (i : Nat) : Bool :=
  match ws.get? i, ws.get? (i + 1) with
  | some w, some w2 => (w.map Char.toLower == "part".data) && allDigits w2
  | _, _ => false

/-- The backward scan of parsePRTitle from index i down to 0, returning the
first index (hence the largest overall) at which a "part N" pair sits. -/
def findPartAux (ws : List (List Char)) : Nat → Option Nat
  | 0 => if partAt ws 0 then some 0 else none
  | i + 1 => if partAt ws (i + 1) then some (i + 1) else findPartAux ws i

/-- The part-suffix search of parsePRTitle: scan from words.length - 2
downwards; none when fewer than two words. -/
def findPart (ws : List (List Char)) : Option (Nat × List Char) :=
  if 2 ≤ ws.length then
    match findPartAux ws (ws.length - 2) with
    | some i => some (i, ((ws.get? (i + 1)).getD []))
    | none => none
  else none

/-- Capitalize the first character (charAt(0).toUpperCase() + slice(1)). -/
def capFirst : List Char → List Char
  | [] => []
  | c :: t => c.toUpper :: t

/-- The tail of parsePRTitle: given the resolved ticket id and the remaining
words, extract the last "part N" pair, remove exactly that two-word span and
assemble the final title string. -/
def finishTitle (ticketId : List Char) (remaining : List (List Char)) : String :=
  if remaining = [] then ⟨ticketId⟩
  else
    match findPart remaining with
    | none =>
      ⟨ticketId ++ ' ' :: capFirst ((remaining.intersperse [' ']).flatten)⟩
    | some (i, ds) =>
      let partSuffix := "[PART-".data ++ ds ++ [']']
      let featureWords := remaining.take i ++ remaining.drop (i + 2)
      if featureWords = [] then ⟨ticketId ++ ' ' :: partSuffix⟩
      else ⟨ticketId ++ ' ' :: partSuffix ++ ' ' ::
              capFirst ((featureWords.intersperse [' ']).flatten)⟩

/-- parsePRTitle from src/pr-title/mod.ts: trim, slug detection, word split,
ticket-id resolution, last "part N" extraction, capitalization and assembly. -/
def parsePRTitle (title : String) : String :=
  let trimmed := trimChars title.data
  let words := titleWords trimmed
  match words with
  | [] => ""
  | w1 :: rest1 =>
    let firstWord := w1.map Char.toLower
    let secondWord := match rest1 with
      | w2 :: _ => w2.map Char.toLower
      | [] => []
    if firstWord = "no".data ∧ secondWord = "ticket".data then
      finishTitle "[no-ticket]".data (words.drop 2)
    else if firstWord = "noticket".data then
      finishTitle "[no-ticket]".data (words.drop 1)
    else
      match rest1 with
      | w2 :: _ =>
        finishTitle ('[' :: w1.map Char.toUpper ++ '-' :: w2.map Char.toUpper ++ [']'])
          (words.drop 2)
      | [] =>
        finishTitle ('[' :: w1.map Char.toUpper ++ [']']) []

/-! ## Image extraction (src/images/mod.ts) -/

/-- One exec step of /<img[^>]+>/gi: find the first occurrence of the
literal <img (case-insensitive) that is followed by at least one non-'>'
character and then a '>'.  The match runs to the first such '>'; the
remainder after it is returned for the next exec call.  Failed starting
positions advance by one character. -/
def findImgTag : List Char → Option (List Char × List Char)
  | [] => none
  | c :: rest =>
    if c = '<' && startsCI "img".data rest then
      match rest.drop 3 with
      | [] => none
      | a :: t =>
        if a = '>' then findImgTag rest
        else if (a :: t).any (fun d => d = '>') then
          some ('<' :: rest.take 3 ++
              (a :: t).takeWhile (fun d => d ≠ '>') ++ ['>'],
            (a :: t).drop (((a :: t).takeWhile (fun d => d ≠ '>')).length + 1))
        else findImgTag rest
    else findImgTag rest

theorem findImgTag_length :
    ∀ {cs tag rem : List Char}, findImgTag cs = some (tag, rem) →
      rem.length < cs.length := by
  intro cs
  induction cs with
  | nil => intro tag rem h; simp [findImgTag] at h
  | cons c rest ih =>
    intro tag rem h
    rw [findImgTag] at h
    by_cases h1 : (c = '<' && startsCI "img".data rest) = true
    · rw [if_pos h1] at h
      rcases h3 : rest.drop 3 with - | ⟨a, t⟩ <;> rw [h3] at h
      · exact absurd h (by simp)
      · replace h : (if a = '>' then findImgTag rest
            else if ((a :: t).any fun d => d = '>') = true then
              some ('<' :: List.take 3 rest ++
                  List.takeWhile (fun d => d ≠ '>') (a :: t) ++ ['>'],
                List.drop ((List.takeWhile (fun d => d ≠ '>') (a :: t)).length + 1)
                  (a :: t))
            else findImgTag rest) = some (tag, rem) := h
        by_cases h4 : a = '>'
        · rw [if_pos h4] at h
          exact Nat.lt_succ_of_lt (ih h)
        · rw [if_neg h4] at h
          by_cases h5 : ((a :: t).any fun d => d = '>') = true
          · rw [if_pos h5] at h
            simp only [Option.some.injEq, Prod.mk.injEq] at h
            have hlen : ((a :: t).drop
                (((a :: t).takeWhile (fun d => d ≠ '>')).length + 1)).length ≤
                t.length := by
              rw [List.drop_succ_cons]
              exact lenDrop_le _ _
            have h6 : t.length ≤ rest.length := by
              have := congrArg List.length h3
              rw [List.length_drop] at this
              simp only [List.length_cons] at this
              omega
            rw [← h.2]
            exact Nat.lt_succ_of_le (Nat.le_trans hlen h6)
          · rw [if_neg h5] at h
            exact Nat.lt_succ_of_lt (ih h)
    · rw [if_neg h1] at h
      exact Nat.lt_succ_of_lt (ih h)

/-- The global scan of /<img[^>]+>/gi by exec: repeatedly take the first
match and continue after it. -/
def scanImgs (cs : List Char) : List (List Char) :=
  match h : findImgTag cs with
  | none => []
  | some (tag, rem) => tag :: scanImgs rem
termination_by cs.length
decreasing_by
  exact findImgTag_length h

/-- First match of the regex name="([^"]+)" with the /i flag inside a tag:
at each position, the literal pattern (e.g. alt=") must match
case-insensitively and must be followed by at least one non-quote character
and a closing quote; the captured group is returned.  Failed positions
advance by one character. -/
def scanAttr (pat : List Char) : List Char → Option (List Char)
  | [] => none
  | c :: rest =>
    if startsCI pat (c :: rest) then
      match (c :: rest).drop pat.length with
      | [] => scanAttr pat rest
      | a :: t =>
        if a = '"' then scanAttr pat rest
        else if (a :: t).any (fun d => d = '"') then
          some ((a :: t).takeWhile (fun d => d ≠ '"'))
        else scanAttr pat rest
    else scanAttr pat rest

/-- Build an ImageInfo from an extracted alt text and src value, via
parseFilename (shared tail of both extraction modes). -/
def mkImage (alt src : List Char) : ImageInfo :=
  let parsed := parseFilename ⟨alt⟩
  ⟨parsed.formattedAlt, ⟨src⟩, parsed.formattedAlt, parsed.timing, parsed.order⟩

/-- Per-tag attribute extraction of parseImages: the first alt="..." and
src="..." values; the tag contributes a record only when both are present
(and hence non-empty). -/
def tagRecord (tag : List Char) : Option ImageInfo :=
  match scanAttr "alt=\"".data tag, scanAttr "src=\"".data tag with
  | some alt, some src => some (mkImage alt src)
  | _, _ => none

/-- The records extracted by parseImages before the final sort. -/
def extractTagRecords (htmlContent : String) : List ImageInfo :=
  (scanImgs htmlContent.data).filterMap tagRecord

/-- Stable ascending sort by order: Array.prototype.sort with the comparator
(a, b) => a.order - b.order (guaranteed stable since ES2019). -/
def sortByOrder (images : List ImageInfo) : List ImageInfo :=
  images.insertionSort (fun a b => a.order ≤ b.order)

/-- parseImages from src/images/mod.ts: scan for img tags, extract alt/src
pairs, parse the filename from alt, and stably sort by order. -/
def parseImages (htmlContent : String) : List ImageInfo :=
  sortByOrder (extractTagRecords htmlContent)

/-- readUntil of parseImagesMarkdown specialised to the label: read up to an
unescaped ']' (one whose preceding character is not a backslash), returning
the label and the remainder after the ']'; none when the document ends first
(which makes the outer loop break). -/
def readLabel (prev : Char) : List Char → Option (List Char × List Char)
  | [] => none
  | c :: rest =>
    if c = ']' && prev ≠ '\\' then some ([], rest)
    else
      match readLabel c rest with
      | some (lab, rem) => some (c :: lab, rem)
      | none => none

/-- Depth change of the balanced-parenthesis scan for one character. -/
def newDepth (depth : Nat) (c : Char) : Nat :=
  if c = '(' then depth + 1 else if c = ')' then depth - 1 else depth

/-- Balanced-parenthesis scan of parseImagesMarkdown starting at depth
(the code starts at 1 after the opening parenthesis): returns the body
without the closing parenthesis and the remainder after it, or none when the
document ends at positive depth. -/
def readParens (depth : Nat) : List Char → Option (List Char × List Char)
  | [] => none
  | c :: rest =>
    if newDepth depth c = 0 then some ([], rest)
    else
      match readParens (newDepth depth c) rest with
      | some (inner, rem) => some (c :: inner, rem)
      | none => none

theorem readLabel_length {prev : Char} :
    ∀ {cs lab rem : List Char}, readLabel prev cs = some (lab, rem) →
      rem.length < cs.length := by
  intro cs
  induction cs generalizing prev with
  | nil => intro lab rem h; simp [readLabel] at h
  | cons c rest ih =>
    intro lab rem h
    rw [readLabel] at h
    split at h
    · simp at h
      obtain ⟨-, h2⟩ := h
      simp [← h2, Nat.lt_succ_of_le]
    · rcases hrec : readLabel c rest with - | ⟨lab', rem'⟩
      · rw [hrec] at h; exact absurd h (by simp)
      · rw [hrec] at h
        simp at h
        obtain ⟨-, h2⟩ := h
        exact Nat.lt_succ_of_lt (h2 ▸ ih hrec)

theorem readParens_length {depth : Nat} :
    ∀ {cs inner rem : List Char}, readParens depth cs = some (inner, rem) →
      rem.length < cs.length := by
  intro cs
  induction cs generalizing depth with
  | nil => intro inner rem h; simp [readParens] at h
  | cons c rest ih =>
    intro inner rem h
    rw [readParens] at h
    by_cases hd : newDepth depth c = 0
    · rw [if_pos hd] at h
      simp only [Option.some.injEq, Prod.mk.injEq] at h
      obtain ⟨-, h2⟩ := h
      simp [← h2, Nat.lt_succ_of_le]
    · rw [if_neg hd] at h
      rcases hrec : readParens (newDepth depth c) rest with - | ⟨inner', rem'⟩
      · rw [hrec] at h; exact absurd h (by simp)
      · rw [hrec] at h
        simp only [Option.some.injEq, Prod.mk.injEq] at h
        obtain ⟨-, h2⟩ := h
        exact Nat.lt_succ_of_lt (h2 ▸ ih hrec)

/-- Source extraction from the parenthesized body of a markdown image link:
trim; an angle-bracketed body takes the content before the '>' (only when
the '>' sits past position 1), otherwise the first whitespace-delimited
token. -/
def extractSrc (inner : List Char) : List Char :=
  let innerT := trimChars inner
  if innerT.head? = some '<' then
    match innerT.findIdx? (fun d => d = '>') with
    | some close =>
      if 1 < close then trimChars ((innerT.drop 1).take (close - 1)) else []
    | none => []
  else innerT.takeWhile (fun d => !jsWs d)

/-- One iteration step of the parseImagesMarkdown loop: find the next "![",
read the label up to an unescaped ']' (none — breaking the whole loop — if it
never closes), skip whitespace, require '(', read the balanced-parenthesis
body, and return the (label, source) pair with the remainder after the
closing parenthesis.  A missing '(' or unbalanced body resumes scanning two
characters past the "![" marker. -/
def findMd : List Char → Option ((List Char × List Char) × List Char)
  | [] => none
  | '!' :: '[' :: rest2 =>
    match readLabel '[' rest2 with
    | none => none
    | some (lab, afterBr) =>
      match afterBr.dropWhile jsWs with
      | '(' :: afterParen =>
        match readParens 1 afterParen with
        | none => findMd rest2
        | some (inner, rem) => some ((lab, extractSrc inner), rem)
      | _ => findMd rest2
  | _ :: rest => findMd rest

theorem findMd_length :
    ∀ {cs : List Char} {p : List Char × List Char} {rem : List Char},
      findMd cs = some (p, rem) → rem.length < cs.length := by
  intro cs
  induction cs using findMd.induct with
  | case1 => intro p rem h; simp [findMd] at h
  | case2 rest2 hlab =>
    intro p rem h
    rw [findMd] at h
    simp only [hlab] at h
    exact absurd h (by simp)
  | case3 rest2 lab afterBr hlab afterParen hws hpar ih =>
    intro p rem h
    rw [findMd] at h
    simp only [hlab, hws, hpar] at h
    have := ih h
    simp only [List.length_cons]
    omega
  | case4 rest2 lab afterBr hlab afterParen hws inner rem' hpar =>
    intro p rem h
    rw [findMd] at h
    simp only [hlab, hws, hpar, Option.some.injEq, Prod.mk.injEq] at h
    obtain ⟨-, h6⟩ := h
    subst h6
    have h1 : rem'.length < afterParen.length := readParens_length hpar
    have h2 : afterParen.length < (afterBr.dropWhile jsWs).length := by
      rw [hws]; simp
    have h3 : (afterBr.dropWhile jsWs).length ≤ afterBr.length :=
      lenDropWhile_le _ _
    have h4 : afterBr.length < rest2.length := readLabel_length hlab
    simp only [List.length_cons]
    omega
  | case5 rest2 lab afterBr hlab hne ih =>
    intro p rem h
    rw [findMd] at h
    simp only [hlab] at h
    have := ih h
    simp only [List.length_cons]
    omega
  | case6 c rest hne ih =>
    intro p rem h
    rw [findMd.eq_def] at h
    split at h
    · exact absurd h (by simp)
    · rename_i r2 heq
      injection heq with h1 h2
      exact (hne r2 h1 h2).elim
    · rename_i hd tl hne2 heq
      injection heq with h1 h2
      subst h2
      exact Nat.lt_succ_of_lt (ih h)

/-- The scanning loop of parseImagesMarkdown: repeatedly take the next
extracted (label, source) pair and continue after it; stop when no further
pair exists (end of input, or an unterminated label breaking the loop). -/
def scanMd (cs : List Char) : List (List Char × List Char) :=
  match h : findMd cs with
  | none => []
  | some (p, rem) => p :: scanMd rem
termination_by cs.length
decreasing_by
  exact findMd_length h

/-- The records extracted by parseImagesMarkdown before the final sort:
pairs with an empty label or empty source are skipped. -/
def extractMdRecords (markdownContent : String) : List ImageInfo :=
  (scanMd markdownContent.data).filterMap fun p =>
    if p.1 ≠ [] ∧ p.2 ≠ [] then some (mkImage p.1 p.2) else none

/-- parseImagesMarkdown from src/images/mod.ts: scan the document for
![label](target) image links and stably sort the records by order. -/
def parseImagesMarkdown (markdownContent : String) : List ImageInfo :=
  sortByOrder (extractMdRecords markdownContent)

/-! ## groupImagesByCategory (src/images/mod.ts, lines 186-217) -/

/-- A paired before/after group (the Map value type of
groupImagesByCategory). -/
structure PairGroup where
  before : Option ImageInfo
  after : Option ImageInfo
  order : Nat
deriving DecidableEq, Repr

/-- Lookup in the insertion-ordered map modelled as an association list. -/
def lookupKey (k : String) : List (String × PairGroup) → Option PairGroup
  | [] => none
  | (k', g) :: t => if k' = k then some g else lookupKey k t

/-- In-place update of the entry with the given key (a JS Map.set on an
existing key keeps the insertion position). -/
def updateKey (k : String) (f : PairGroup → PairGroup) :
    List (String × PairGroup) → List (String × PairGroup)
  | [] => []
  | (k', g) :: t => if k' = k then (k', f g) :: t else (k', g) :: updateKey k f t

/-- Map.has. -/
def containsKey (k : String) (m : List (String × PairGroup)) : Bool :=
  (lookupKey k m).isSome

/-- The mutation applied to a group by one non-standalone record: store the
record in its timing slot and lower the group order to
min(group.order, image.order). -/
def applyImage (image : ImageInfo) (g : PairGroup) : PairGroup :=
  let g' :=
    match image.timing with
    | Timing.before => { g with before := some image }
    | Timing.after => { g with after := some image }
    | Timing.standalone => g
  { g' with order := min g'.order image.order }

/-- One iteration of the loop of groupImagesByCategory. -/
def groupStep (acc : List ImageInfo × List (String × PairGroup)) (image : ImageInfo) :
    List ImageInfo × List (String × PairGroup) :=
  if image.timing = Timing.standalone then
    (acc.1 ++ [image], acc.2)
  else
    let m :=
      if containsKey image.category acc.2 then acc.2
      else acc.2 ++ [(image.category, ⟨none, none, image.order⟩)]
    (acc.1, updateKey image.category (applyImage image) m)

/-- groupImagesByCategory from src/images/mod.ts: partition the records into
the standalone sequence and the insertion-ordered map of paired groups. -/
def groupImagesByCategory (images : List ImageInfo) :
    List ImageInfo × List (String × PairGroup) :=
  images.foldl groupStep ([], [])

/-! ## Generic helper lemmas -/

theorem ciChar_self (c : Char) : ciChar c c = true := by
  unfold ciChar
  split <;> simp

theorem startsCI_self_append : ∀ (p rest : List Char), startsCI p (p ++ rest) = true
  | [], _ => rfl
  | c :: p, rest => by
    rw [List.cons_append, startsCI, ciChar_self, startsCI_self_append p rest]
    rfl

theorem takeWhile_append_all {p : Char → Bool} :
    ∀ {l₁ l₂ : List Char}, (∀ c ∈ l₁, p c = true) →
      (l₁ ++ l₂).takeWhile p = l₁ ++ l₂.takeWhile p := by
  intro l₁
  induction l₁ with
  | nil => intro l₂ _; rfl
  | cons c t ih =>
    intro l₂ h
    rw [List.cons_append, List.takeWhile_cons, h c (List.mem_cons_self c t),
      ih fun d hd => h d (List.mem_cons_of_mem c hd)]
    rfl

theorem dropWhile_append_all {p : Char → Bool} :
    ∀ {l₁ l₂ : List Char}, (∀ c ∈ l₁, p c = true) →
      (l₁ ++ l₂).dropWhile p = l₂.dropWhile p := by
  intro l₁
  induction l₁ with
  | nil => intro l₂ _; rfl
  | cons c t ih =>
    intro l₂ h
    rw [List.cons_append, List.dropWhile_cons, h c (List.mem_cons_self c t)]
    exact ih fun d hd => h d (List.mem_cons_of_mem c hd)

theorem takeWhile_append_stop {p : Char → Bool} :
    ∀ {l₁ : List Char} {c : Char} {l₂ : List Char}, (∀ d ∈ l₁, p d = true) →
      p c = false → (l₁ ++ c :: l₂).takeWhile p = l₁ := by
  intro l₁ c l₂ h hc
  rw [takeWhile_append_all h, List.takeWhile_cons, hc]
  simp

theorem dropWhile_cons_false {p : Char → Bool} {c : Char} {l : List Char}
    (hc : p c = false) : (c :: l).dropWhile p = c :: l := by
  rw [List.dropWhile_cons, hc]
  simp

theorem dropWhile_all_nil {p : Char → Bool} :
    ∀ {l : List Char}, (∀ c ∈ l, p c = true) → l.dropWhile p = [] := by
  intro l
  induction l with
  | nil => intro _; rfl
  | cons c t ih =>
    intro h
    rw [List.dropWhile_cons, h c (List.mem_cons_self c t)]
    simp only
    exact ih fun d hd => h d (List.mem_cons_of_mem c hd)

theorem trimChars_all_ws {l : List Char} (h : ∀ c ∈ l, jsWs c = true) :
    trimChars l = [] := by
  unfold trimChars
  rw [dropWhile_all_nil h]
  rfl

theorem dropWhile_all_false {p : Char → Bool} {l : List Char}
    (h : ∀ c ∈ l, p c = false) : l.dropWhile p = l := by
  cases l with
  | nil => rfl
  | cons c t => exact dropWhile_cons_false (h c (List.mem_cons_self c t))

theorem trimChars_no_ws {l : List Char} (h : ∀ c ∈ l, jsWs c = false) :
    trimChars l = l := by
  unfold trimChars
  rw [dropWhile_all_false h,
    dropWhile_all_false fun c hc => h c (List.mem_reverse.1 hc),
    List.reverse_reverse]

/-! ## Claim C1 -/

/-- C1: the claim says parsePRTitle returns the empty string on empty or
whitespace-only input.  In fact the JS split quirk ("".split(/\s+/) = [""])
makes the zero-words guard unreachable and the function returns "[]" on such
inputs; it never returns the empty string. -/
theorem parsePRTitle_emptyInput_eval :
    parsePRTitle "" = "[]" ∧ parsePRTitle "   " = "[]" ∧ ("[]" : String) ≠ "" := by
  refine ⟨by decide, by decide, by decide⟩

/-! ## Claim C2 -/

theorem stripOrderPre_nodigit {c : Char} {t : List Char} (h : c.isDigit = false) :
    stripOrderPre (c :: t) = (0, c :: t) := by
  unfold stripOrderPre
  rw [List.takeWhile_cons, h]
  simp

theorem underscores_append (l₁ l₂ : List Char) :
    underscoresToSpaces (l₁ ++ l₂) = underscoresToSpaces l₁ ++ underscoresToSpaces l₂ :=
  List.map_append _ _ _

theorem underscores_replicate_space (n : Nat) :
    underscoresToSpaces (List.replicate n ' ') = List.replicate n ' ' := by
  unfold underscoresToSpaces
  rw [List.map_replicate]
  rfl

/-- Before-matcher succeeds on spaces followed by the bare word "before". -/
theorem matchTiming_spaces_before (m : Nat) :
    matchTimingSuffix "before".data
      (List.replicate (m + 1) ' ' ++ "before".data) = some [] := by
  have hrev : (List.replicate (m + 1) ' ' ++ "before".data).reverse =
      "erofeb".data ++ List.replicate (m + 1) ' ' := by
    rw [List.reverse_append, List.reverse_replicate]
    rfl
  have hdw : List.dropWhile jsWs ("erofeb".data ++ List.replicate (m + 1) ' ') =
      "erofeb".data ++ List.replicate (m + 1) ' ' := by
    rw [show ("erofeb".data ++ List.replicate (m + 1) ' ') =
      'e' :: ("rofeb".data ++ List.replicate (m + 1) ' ') from rfl]
    exact dropWhile_cons_false (by decide)
  have hstart : startsCI "before".data.reverse
      ("erofeb".data ++ List.replicate (m + 1) ' ') = true := by
    rw [show "before".data.reverse = "erofeb".data from rfl]
    exact startsCI_self_append _ _
  have hdrop : ("erofeb".data ++ List.replicate (m + 1) ' ').drop "before".data.length =
      List.replicate (m + 1) ' ' := by
    rw [show "before".data.length = ("erofeb".data).length from rfl, List.drop_left]
  have hhead : headIsWs (List.replicate (m + 1) ' ') = true := by
    rw [List.replicate_succ]
    rfl
  have htrim : trimChars (List.replicate (m + 1) ' ').reverse = [] := by
    rw [List.reverse_replicate]
    exact trimChars_all_ws fun c hc => by
      rw [List.eq_of_mem_replicate hc]; rfl
  unfold matchTimingSuffix
  simp only [hrev, hdw, hstart, hdrop, hhead, Bool.and_self, if_pos, htrim]

/-- Before-matcher fails on spaces followed by the bare word "after". -/
theorem matchTiming_spaces_after_no (m : Nat) :
    matchTimingSuffix "before".data
      (List.replicate (m + 1) ' ' ++ "after".data) = none := by
  have hrev : (List.replicate (m + 1) ' ' ++ "after".data).reverse =
      "retfa".data ++ List.replicate (m + 1) ' ' := by
    rw [List.reverse_append, List.reverse_replicate]
    rfl
  have hdw : List.dropWhile jsWs ("retfa".data ++ List.replicate (m + 1) ' ') =
      "retfa".data ++ List.replicate (m + 1) ' ' := by
    rw [show ("retfa".data ++ List.replicate (m + 1) ' ') =
      'r' :: ("etfa".data ++ List.replicate (m + 1) ' ') from rfl]
    exact dropWhile_cons_false (by decide)
  have hstart : startsCI "before".data.reverse
      ("retfa".data ++ List.replicate (m + 1) ' ') = false := by
    rw [show "before".data.reverse = "erofeb".data from rfl,
      show "erofeb".data = 'e' :: "rofeb".data from rfl,
      show ("retfa".data ++ List.replicate (m + 1) ' ') =
        'r' :: ("etfa".data ++ List.replicate (m + 1) ' ') from rfl,
      startsCI, show ciChar 'e' 'r' = false from by decide]
    rfl
  have hext : ("retfa".data ++ List.replicate (m + 1) ' ').takeWhile extChar =
      "retfa".data := by
    rw [List.replicate_succ]
    exact takeWhile_append_stop (by decide) (by decide)
  have hr2 : ("retfa".data ++ List.replicate (m + 1) ' ').drop ("retfa".data).length =
      List.replicate (m + 1) ' ' := List.drop_left _ _
  unfold matchTimingSuffix
  simp only [hrev, hdw, hstart, Bool.false_and, if_neg, hext, hr2]
  rw [List.replicate_succ]
  simp

/-- After-matcher succeeds on spaces followed by the bare word "after". -/
theorem matchTiming_spaces_after (m : Nat) :
    matchTimingSuffix "after".data
      (List.replicate (m + 1) ' ' ++ "after".data) = some [] := by
  have hrev : (List.replicate (m + 1) ' ' ++ "after".data).reverse =
      "retfa".data ++ List.replicate (m + 1) ' ' := by
    rw [List.reverse_append, List.reverse_replicate]
    rfl
  have hdw : List.dropWhile jsWs ("retfa".data ++ List.replicate (m + 1) ' ') =
      "retfa".data ++ List.replicate (m + 1) ' ' := by
    rw [show ("retfa".data ++ List.replicate (m + 1) ' ') =
      'r' :: ("etfa".data ++ List.replicate (m + 1) ' ') from rfl]
    exact dropWhile_cons_false (by decide)
  have hstart : startsCI "after".data.reverse
      ("retfa".data ++ List.replicate (m + 1) ' ') = true := by
    rw [show "after".data.reverse = "retfa".data from rfl]
    exact startsCI_self_append _ _
  have hdrop : ("retfa".data ++ List.replicate (m + 1) ' ').drop "after".data.length =
      List.replicate (m + 1) ' ' := by
    rw [show "after".data.length = ("retfa".data).length from rfl, List.drop_left]
  have hhead : headIsWs (List.replicate (m + 1) ' ') = true := by
    rw [List.replicate_succ]
    rfl
  have htrim : trimChars (List.replicate (m + 1) ' ').reverse = [] := by
    rw [List.reverse_replicate]
    exact trimChars_all_ws fun c hc => by
      rw [List.eq_of_mem_replicate hc]; rfl
  unfold matchTimingSuffix
  simp only [hrev, hdw, hstart, hdrop, hhead, Bool.and_self, if_pos, htrim]

/-- C2 counterexample: the claim says an input consisting solely of a timing
word (such as the exact string "before") yields an empty normalizedName; in
fact the timing regex requires whitespace before the word, so parseFilename
"before" is standalone with normalizedName "before". -/
theorem parseFilename_bare_timing_counterexample :
    (parseFilename "before").formattedAlt ≠ "" := by decide

/-- C2 amended: an input consisting of one or more spaces followed by a bare
timing word yields an empty normalizedName (with the corresponding timing),
while the bare timing word with no preceding whitespace is standalone and
keeps itself as normalizedName. -/
theorem parseFilename_timing_word_only (n : Nat) (hn : 0 < n) :
    parseFilename ⟨List.replicate n ' ' ++ "before".data⟩ =
      ⟨0, Timing.before, ""⟩ ∧
    parseFilename ⟨List.replicate n ' ' ++ "after".data⟩ =
      ⟨0, Timing.after, ""⟩ ∧
    parseFilename "before" = ⟨0, Timing.standalone, "before"⟩ ∧
    parseFilename "after" = ⟨0, Timing.standalone, "after"⟩ := by
  obtain ⟨m, rfl⟩ : ∃ m, n = m + 1 := ⟨n - 1, by omega⟩
  refine ⟨?_, ?_, by decide, by decide⟩
  · have hdata : (⟨List.replicate (m + 1) ' ' ++ "before".data⟩ : String).data =
        List.replicate (m + 1) ' ' ++ "before".data := rfl
    have hstrip : stripOrderPre (List.replicate (m + 1) ' ' ++ "before".data) =
        (0, List.replicate (m + 1) ' ' ++ "before".data) := by
      rw [List.replicate_succ, List.cons_append]
      exact stripOrderPre_nodigit (by decide)
    have hund : underscoresToSpaces (List.replicate (m + 1) ' ' ++ "before".data) =
        List.replicate (m + 1) ' ' ++ "before".data := by
      rw [underscores_append, underscores_replicate_space]
      rfl
    unfold parseFilename
    rw [hdata, hstrip]
    simp only
    rw [hund, matchTiming_spaces_before]
  · have hdata : (⟨List.replicate (m + 1) ' ' ++ "after".data⟩ : String).data =
        List.replicate (m + 1) ' ' ++ "after".data := rfl
    have hstrip : stripOrderPre (List.replicate (m + 1) ' ' ++ "after".data) =
        (0, List.replicate (m + 1) ' ' ++ "after".data) := by
      rw [List.replicate_succ, List.cons_append]
      exact stripOrderPre_nodigit (by decide)
    have hund : underscoresToSpaces (List.replicate (m + 1) ' ' ++ "after".data) =
        List.replicate (m + 1) ' ' ++ "after".data := by
      rw [underscores_append, underscores_replicate_space]
      rfl
    unfold parseFilename
    rw [hdata, hstrip]
    simp only
    rw [hund, matchTiming_spaces_after_no, matchTiming_spaces_after]

/-- Witness for the C2 amended theorem at a single space. -/
theorem parseFilename_timing_word_only_witness :
    parseFilename ⟨List.replicate 1 ' ' ++ "before".data⟩ =
      ⟨0, Timing.before, ""⟩ ∧
    parseFilename ⟨List.replicate 1 ' ' ++ "after".data⟩ =
      ⟨0, Timing.after, ""⟩ ∧
    parseFilename "before" = ⟨0, Timing.standalone, "before"⟩ ∧
    parseFilename "after" = ⟨0, Timing.standalone, "after"⟩ :=
  parseFilename_timing_word_only 1 (by decide)

/-! ## Claim C5 -/

instance : IsTotal ImageInfo (fun a b => a.order ≤ b.order) :=
  ⟨fun a b => Nat.le_total a.order b.order⟩

instance : IsTrans ImageInfo (fun a b => a.order ≤ b.order) :=
  ⟨fun _ _ _ h h' => Nat.le_trans h h'⟩

theorem filter_orderedInsert (v : Nat) (a : ImageInfo) :
    ∀ l : List ImageInfo,
      (List.orderedInsert (fun x y => x.order ≤ y.order) a l).filter
          (fun r => r.order == v) =
        if a.order = v then a :: l.filter (fun r => r.order == v)
        else l.filter (fun r => r.order == v) := by
  intro l
  induction l with
  | nil =>
    by_cases hav : a.order = v <;>
      simp [List.orderedInsert, List.filter_cons, hav]
  | cons b t ih =>
    simp only [List.orderedInsert]
    by_cases hab : a.order ≤ b.order
    · rw [if_pos hab]
      by_cases hav : a.order = v <;> simp [List.filter_cons, hav]
    · rw [if_neg hab]
      by_cases hav : a.order = v <;> by_cases hbv : b.order = v
      · exact absurd (hav ▸ hbv ▸ Nat.le_refl v) hab
      all_goals simp [List.filter_cons, hav, hbv, ih]

theorem filter_sortByOrder (v : Nat) (l : List ImageInfo) :
    (sortByOrder l).filter (fun r => r.order == v) =
      l.filter (fun r => r.order == v) := by
  unfold sortByOrder
  induction l with
  | nil => rfl
  | cons a t ih =>
    rw [List.insertionSort, filter_orderedInsert]
    by_cases hav : a.order = v <;> simp [List.filter_cons, hav, ih]

/-- C5: in both tag mode and link mode the returned record sequence is sorted
by ascending order, and the sort is stable: for every order value the records
carrying it appear in the same relative positions as in the unsorted
extraction from the document. -/
theorem parseImages_sorted_stable (doc : String) :
    ((parseImages doc).Sorted (fun a b => a.order ≤ b.order) ∧
      ∀ v, (parseImages doc).filter (fun r => r.order == v) =
        (extractTagRecords doc).filter (fun r => r.order == v)) ∧
    ((parseImagesMarkdown doc).Sorted (fun a b => a.order ≤ b.order) ∧
      ∀ v, (parseImagesMarkdown doc).filter (fun r => r.order == v) =
        (extractMdRecords doc).filter (fun r => r.order == v)) := by
  refine ⟨⟨?_, fun v => ?_⟩, ⟨?_, fun v => ?_⟩⟩
  · exact List.sorted_insertionSort _ _
  · exact filter_sortByOrder v _
  · exact List.sorted_insertionSort _ _
  · exact filter_sortByOrder v _

/-! ## Claim C8 -/

theorem findPartAux_last (ws : List (List Char)) :
    ∀ (n j : Nat), j ≤ n → partAt ws j = true →
      ∃ i, findPartAux ws n = some i ∧ j ≤ i ∧ partAt ws i = true := by
  intro n
  induction n with
  | zero =>
    intro j hj hp
    have hj0 : j = 0 := Nat.le_zero.1 hj
    subst hj0
    rw [findPartAux, if_pos hp]
    exact ⟨0, rfl, Nat.le_refl 0, hp⟩
  | succ n ih =>
    intro j hj hp
    rw [findPartAux]
    by_cases h : partAt ws (n + 1) = true
    · rw [if_pos h]
      exact ⟨n + 1, rfl, hj, h⟩
    · rw [if_neg h]
      have hj' : j ≤ n := by
        rcases Nat.eq_or_lt_of_le hj with he | hl
        · exact absurd (he ▸ hp) h
        · omega
      exact ih j hj' hp

theorem partAt_lt {ws : List (List Char)} {j : Nat} (h : partAt ws j = true) :
    j + 1 < ws.length := by
  unfold partAt at h
  rcases h1 : ws.get? j with - | w <;> rcases h2 : ws.get? (j + 1) with - | w2 <;>
    rw [h1, h2] at h
  · exact absurd h (by simp)
  · exact absurd h (by simp)
  · exact absurd h (by simp)
  · exact (List.get?_eq_some.1 h2).1

/-- C8: whenever some position of the post-ticket word list carries a
"part N" pair, the backward scan selects the last such position i, the
part suffix is built from words[i+1], and exactly the two-word span at i is
removed (words before and after it are concatenated); in particular
parsePRTitle "Mb 80 part 1 of the feature part 2" =
"[MB-80] [PART-2] Part 1 of the feature". -/
theorem parsePRTitle_lastPart (ws : List (List Char)) (j : Nat)
    (hj : partAt ws j = true) :
    (∃ i, j ≤ i ∧ partAt ws i = true ∧
        findPart ws = some (i, (ws.get? (i + 1)).getD []) ∧
        ∀ tid, finishTitle tid ws =
          (if ws.take i ++ ws.drop (i + 2) = [] then
            (⟨tid ++ ' ' :: ("[PART-".data ++ (ws.get? (i + 1)).getD [] ++ [']'])⟩ : String)
          else ⟨tid ++ ' ' :: ("[PART-".data ++ (ws.get? (i + 1)).getD [] ++ [']']) ++ ' ' ::
              capFirst (((ws.take i ++ ws.drop (i + 2)).intersperse [' ']).flatten)⟩)) ∧
    parsePRTitle "Mb 80 part 1 of the feature part 2" =
      "[MB-80] [PART-2] Part 1 of the feature" := by
  constructor
  · have hlen : 2 ≤ ws.length := by
      have := partAt_lt hj
      omega
    have hjn : j ≤ ws.length - 2 := by
      have := partAt_lt hj
      omega
    obtain ⟨i, hfind, hji, hpi⟩ := findPartAux_last ws (ws.length - 2) j hjn hj
    have hfp : findPart ws = some (i, (ws.get? (i + 1)).getD []) := by
      unfold findPart
      rw [if_pos hlen, hfind]
    refine ⟨i, hji, hpi, hfp, fun tid => ?_⟩
    have hne : ws ≠ [] := by
      intro hnil
      rw [hnil] at hlen
      exact absurd hlen (by simp)
    unfold finishTitle
    rw [if_neg hne, hfp]
  · decide

/-- Witness for the C8 theorem at the word list ["part", "1"]. -/
theorem parsePRTitle_lastPart_witness :
    (∃ i, 0 ≤ i ∧ partAt ["part".data, "1".data] i = true ∧
        findPart ["part".data, "1".data] =
          some (i, ((["part".data, "1".data].get? (i + 1)).getD [])) ∧
        ∀ tid, finishTitle tid ["part".data, "1".data] =
          (if ["part".data, "1".data].take i ++ ["part".data, "1".data].drop (i + 2) = [] then
            (⟨tid ++ ' ' :: ("[PART-".data ++
              ((["part".data, "1".data].get? (i + 1)).getD []) ++ [']'])⟩ : String)
          else ⟨tid ++ ' ' :: ("[PART-".data ++
              ((["part".data, "1".data].get? (i + 1)).getD []) ++ [']']) ++ ' ' ::
              capFirst (((["part".data, "1".data].take i ++
                ["part".data, "1".data].drop (i + 2)).intersperse [' ']).flatten)⟩)) ∧
    parsePRTitle "Mb 80 part 1 of the feature part 2" =
      "[MB-80] [PART-2] Part 1 of the feature" :=
  parsePRTitle_lastPart ["part".data, "1".data] 0 (by decide)

/-! ## Claim C9 -/

/-- C9: when the trimmed title matches the slash-slug shape, the ticket
letters and digits become the first two logical words and the rest is
exploded by turning runs of underscores and hyphens into spaces and dropping
empty tokens; in particular
parsePRTitle "MB-95-preferred-times/remove-minimum-constraint-on-start-date"
= "[MB-95] Remove minimum constraint on start date". -/
theorem parsePRTitle_slashSlug (s : String) (L D R : List Char)
    (h : slashSlugMatch (trimChars s.data) = some (L, D, R)) :
    titleWords (trimChars s.data) = L :: D :: explodeSlug R ∧
    parsePRTitle "MB-95-preferred-times/remove-minimum-constraint-on-start-date" =
      "[MB-95] Remove minimum constraint on start date" := by
  constructor
  · unfold titleWords
    rw [h]
  · decide

/-- Witness for the C9 theorem at the concrete slash-slug title. -/
theorem parsePRTitle_slashSlug_witness :
    titleWords (trimChars
        "MB-95-preferred-times/remove-minimum-constraint-on-start-date".data) =
      "MB".data :: "95".data ::
        explodeSlug "remove-minimum-constraint-on-start-date".data ∧
    parsePRTitle "MB-95-preferred-times/remove-minimum-constraint-on-start-date" =
      "[MB-95] Remove minimum constraint on start date" :=
  parsePRTitle_slashSlug
    "MB-95-preferred-times/remove-minimum-constraint-on-start-date"
    "MB".data "95".data "remove-minimum-constraint-on-start-date".data
    (by decide)

/-! ## Characterization of groupImagesByCategory -/

/-- The non-standalone records of a category, in sequence order. -/
def catRecords (xs : List ImageInfo) (k : String) : List ImageInfo :=
  xs.filter fun r => r.category == k && r.timing != Timing.standalone

/-- The records of a category with a given timing, in sequence order. -/
def timingRecords (xs : List ImageInfo) (k : String) (t : Timing) : List ImageInfo :=
  xs.filter fun r => r.category == k && r.timing == t

/-- Minimum of the order fields of a non-empty record list (0 on []). -/
def specOrder : List ImageInfo → Nat
  | [] => 0
  | r :: t => t.foldl (fun n r' => min n r'.order) r.order

/-- Categories of the non-standalone records in first-seen order. -/
def fsStep (ks : List String) (r : ImageInfo) : List String :=
  if r.timing = Timing.standalone then ks
  else if r.category ∈ ks then ks else ks ++ [r.category]

def firstSeenKeys (xs : List ImageInfo) : List String :=
  xs.foldl fsStep []

theorem lookup_update_self (k : String) (f : PairGroup → PairGroup) :
    ∀ m : List (String × PairGroup),
      lookupKey k (updateKey k f m) = (lookupKey k m).map f := by
  intro m
  induction m with
  | nil => rfl
  | cons kv t ih =>
    obtain ⟨k', g⟩ := kv
    by_cases h : k' = k
    · simp [updateKey, lookupKey, h]
    · simp [updateKey, lookupKey, h, ih]

theorem lookup_update_ne {k k' : String} (h : k' ≠ k) (f : PairGroup → PairGroup) :
    ∀ m : List (String × PairGroup),
      lookupKey k (updateKey k' f m) = lookupKey k m := by
  intro m
  induction m with
  | nil => rfl
  | cons kv t ih =>
    obtain ⟨k'', g⟩ := kv
    rw [updateKey]
    by_cases h2 : k'' = k'
    · rw [if_pos h2, lookupKey, lookupKey,
        if_neg (fun hk => h (h2.symm.trans hk)),
        if_neg (fun hk => h (h2.symm.trans hk))]
    · rw [if_neg h2, lookupKey, lookupKey]
      by_cases h4 : k'' = k
      · rw [if_pos h4, if_pos h4]
      · rw [if_neg h4, if_neg h4, ih]

theorem lookup_append (k c : String) (v : PairGroup) :
    ∀ m : List (String × PairGroup),
      lookupKey k (m ++ [(c, v)]) =
        match lookupKey k m with
        | some g => some g
        | none => if c = k then some v else none := by
  intro m
  induction m with
  | nil => rfl
  | cons kv t ih =>
    obtain ⟨k', g⟩ := kv
    by_cases h : k' = k
    · simp [lookupKey, h]
    · simp [lookupKey, h, ih]

theorem mapFst_update (k : String) (f : PairGroup → PairGroup) :
    ∀ m : List (String × PairGroup),
      (updateKey k f m).map Prod.fst = m.map Prod.fst := by
  intro m
  induction m with
  | nil => rfl
  | cons kv t ih =>
    obtain ⟨k', g⟩ := kv
    by_cases h : k' = k <;> simp [updateKey, h, ih]

theorem lookup_isSome_iff (k : String) :
    ∀ m : List (String × PairGroup),
      (lookupKey k m).isSome = true ↔ k ∈ m.map Prod.fst := by
  intro m
  induction m with
  | nil => simp [lookupKey]
  | cons kv t ih =>
    obtain ⟨k', g⟩ := kv
    by_cases h : k' = k <;> simp [lookupKey, h, ih]
    exact fun he => absurd he.symm h

theorem lookup_none_iff (k : String) (m : List (String × PairGroup)) :
    lookupKey k m = none ↔ k ∉ m.map Prod.fst := by
  rw [← lookup_isSome_iff]
  rcases h : lookupKey k m with - | g <;> simp [h]

theorem groupImagesByCategory_append (xs : List ImageInfo) (r : ImageInfo) :
    groupImagesByCategory (xs ++ [r]) = groupStep (groupImagesByCategory xs) r := by
  unfold groupImagesByCategory
  rw [List.foldl_append]
  rfl

theorem specOrder_append {l : List ImageInfo} (h : l ≠ []) (r : ImageInfo) :
    specOrder (l ++ [r]) = min (specOrder l) r.order := by
  rcases l with - | ⟨x, t⟩
  · exact absurd rfl h
  · show specOrder (x :: (t ++ [r])) = _
    simp [specOrder, List.foldl_append]

theorem timingRecords_nil_of_cat {xs : List ImageInfo} {k : String}
    (h : catRecords xs k = []) {t : Timing} (ht : t ≠ Timing.standalone) :
    timingRecords xs k t = [] := by
  unfold timingRecords
  rw [List.filter_eq_nil]
  intro a ha hpa
  have h2 := List.filter_eq_nil.1 h a ha
  apply h2
  simp only [Bool.and_eq_true, beq_iff_eq, bne_iff_ne, ne_eq] at hpa ⊢
  exact ⟨hpa.1, hpa.2 ▸ ht⟩

theorem applyImage_before {img : ImageInfo} (h : img.timing = Timing.before)
    (g : PairGroup) :
    applyImage img g = ⟨some img, g.after, min g.order img.order⟩ := by
  unfold applyImage
  rw [h]

theorem applyImage_after {img : ImageInfo} (h : img.timing = Timing.after)
    (g : PairGroup) :
    applyImage img g = ⟨g.before, some img, min g.order img.order⟩ := by
  unfold applyImage
  rw [h]

/-- The standalone component of groupImagesByCategory is the standalone
subsequence of the input. -/
theorem group_fst (xs : List ImageInfo) :
    (groupImagesByCategory xs).1 = xs.filter fun r => r.timing == Timing.standalone := by
  induction xs using List.reverseRecOn with
  | nil => rfl
  | append_singleton xs r ih =>
    rw [groupImagesByCategory_append, List.filter_append]
    unfold groupStep
    by_cases hst : r.timing = Timing.standalone
    · rw [if_pos hst]
      simp [ih, hst]
    · rw [if_neg hst]
      simp [ih, hst]

/-- Lookup characterization of groupImagesByCategory: a category is present
exactly when it has a non-standalone record; its group stores the last
before record, the last after record and the minimum order over all its
non-standalone records. -/
theorem group_lookup (xs : List ImageInfo) (k : String) :
    lookupKey k (groupImagesByCategory xs).2 =
      if catRecords xs k = [] then none
      else some ⟨(timingRecords xs k Timing.before).getLast?,
                 (timingRecords xs k Timing.after).getLast?,
                 specOrder (catRecords xs k)⟩ := by
  induction xs using List.reverseRecOn with
  | nil => simp [groupImagesByCategory, lookupKey, catRecords, timingRecords]
  | append_singleton xs r ih =>
    rw [groupImagesByCategory_append]
    unfold groupStep
    by_cases hst : r.timing = Timing.standalone
    · rw [if_pos hst]
      have hcat : catRecords (xs ++ [r]) k = catRecords xs k := by
        unfold catRecords
        rw [List.filter_append]
        simp [hst]
      have hb : timingRecords (xs ++ [r]) k Timing.before =
          timingRecords xs k Timing.before := by
        unfold timingRecords
        rw [List.filter_append]
        simp [hst]
      have ha : timingRecords (xs ++ [r]) k Timing.after =
          timingRecords xs k Timing.after := by
        unfold timingRecords
        rw [List.filter_append]
        simp [hst]
      rw [hcat, hb, ha]
      exact ih
    · rw [if_neg hst]
      simp only
      by_cases hk : r.category = k
      · subst hk
        have hcat : catRecords (xs ++ [r]) r.category =
            catRecords xs r.category ++ [r] := by
          unfold catRecords
          rw [List.filter_append]
          simp [hst]
        have hbapp : timingRecords (xs ++ [r]) r.category Timing.before =
            timingRecords xs r.category Timing.before ++
              (if r.timing = Timing.before then [r] else []) := by
          unfold timingRecords
          rw [List.filter_append]
          by_cases htb : r.timing = Timing.before <;> simp [htb]
        have haapp : timingRecords (xs ++ [r]) r.category Timing.after =
            timingRecords xs r.category Timing.after ++
              (if r.timing = Timing.after then [r] else []) := by
          unfold timingRecords
          rw [List.filter_append]
          by_cases hta : r.timing = Timing.after <;> simp [hta]
        have hne : catRecords (xs ++ [r]) r.category ≠ [] := by
          rw [hcat]
          simp
        rw [if_neg hne]
        rcases hcr : catRecords xs r.category with - | ⟨g0, t0⟩
        · -- first contribution of this category
          have hnone : lookupKey r.category (groupImagesByCategory xs).2 = none := by
            rw [ih, if_pos hcr]
          have hcont : containsKey r.category (groupImagesByCategory xs).2 = false := by
            unfold containsKey
            rw [hnone]
            rfl
          rw [hcont]
          simp only [Bool.false_eq_true, if_false]
          have hm : lookupKey r.category (updateKey r.category (applyImage r)
              ((groupImagesByCategory xs).2 ++
                [(r.category, ⟨none, none, r.order⟩)])) =
              some (applyImage r ⟨none, none, r.order⟩) := by
            rw [lookup_update_self, lookup_append, hnone]
            simp
          rw [hm]
          have hb0 : timingRecords xs r.category Timing.before = [] :=
            timingRecords_nil_of_cat hcr (by simp)
          have ha0 : timingRecords xs r.category Timing.after = [] :=
            timingRecords_nil_of_cat hcr (by simp)
          have hso : specOrder (catRecords (xs ++ [r]) r.category) = r.order := by
            rw [hcat, hcr]
            simp [specOrder]
          rcases htim : r.timing with - | - | -
          · rw [applyImage_before htim]
            rw [hbapp, haapp, hb0, ha0, htim, hso]
            simp
          · rw [applyImage_after htim]
            rw [hbapp, haapp, hb0, ha0, htim, hso]
            simp
          · exact absurd htim hst
        · -- category already present
          have hsome : lookupKey r.category (groupImagesByCategory xs).2 =
              some ⟨(timingRecords xs r.category Timing.before).getLast?,
                    (timingRecords xs r.category Timing.after).getLast?,
                    specOrder (catRecords xs r.category)⟩ := by
            rw [ih, if_neg (hcr ▸ List.cons_ne_nil g0 t0)]
          have hcont : containsKey r.category (groupImagesByCategory xs).2 = true := by
            unfold containsKey
            rw [hsome]
            rfl
          rw [hcont]
          simp only [if_true]
          rw [lookup_update_self, hsome]
          simp only [Option.map_some']
          have hso : specOrder (catRecords (xs ++ [r]) r.category) =
              min (specOrder (catRecords xs r.category)) r.order := by
            rw [hcat]
            exact specOrder_append (hcr ▸ List.cons_ne_nil g0 t0) r
          rcases htim : r.timing with - | - | -
          · rw [applyImage_before htim]
            rw [hbapp, haapp, htim, hso]
            simp
          · rw [applyImage_after htim]
            rw [hbapp, haapp, htim, hso]
            simp
          · exact absurd htim hst
      · -- other categories are untouched
        have hcat : catRecords (xs ++ [r]) k = catRecords xs k := by
          unfold catRecords
          rw [List.filter_append]
          simp [hk]
        have hb : timingRecords (xs ++ [r]) k Timing.before =
            timingRecords xs k Timing.before := by
          unfold timingRecords
          rw [List.filter_append]
          simp [hk]
        have ha : timingRecords (xs ++ [r]) k Timing.after =
            timingRecords xs k Timing.after := by
          unfold timingRecords
          rw [List.filter_append]
          simp [hk]
        rw [hcat, hb, ha, lookup_update_ne hk]
        by_cases hcont : containsKey r.category (groupImagesByCategory xs).2
        · rw [if_pos hcont]
          exact ih
        · rw [if_neg hcont, lookup_append]
          rcases hl : lookupKey k (groupImagesByCategory xs).2 with - | g
          · rw [hl] at ih
            rw [if_neg hk]
            exact ih
          · rw [hl] at ih
            exact ih

/-- Key characterization: the map keys are the categories of the
non-standalone records in first-seen order. -/
theorem group_keys (xs : List ImageInfo) :
    (groupImagesByCategory xs).2.map Prod.fst = firstSeenKeys xs := by
  induction xs using List.reverseRecOn with
  | nil => rfl
  | append_singleton xs r ih =>
    rw [groupImagesByCategory_append]
    unfold groupStep
    unfold firstSeenKeys
    rw [List.foldl_append]
    show _ = (if r.timing = Timing.standalone then firstSeenKeys xs
      else if r.category ∈ firstSeenKeys xs then firstSeenKeys xs
        else firstSeenKeys xs ++ [r.category])
    by_cases hst : r.timing = Timing.standalone
    · rw [if_pos hst, if_pos hst]
      exact ih
    · rw [if_neg hst, if_neg hst]
      simp only
      by_cases hcont : containsKey r.category (groupImagesByCategory xs).2 = true
      · have hmem : r.category ∈ firstSeenKeys xs := by
          rw [← ih, ← lookup_isSome_iff]
          exact hcont
        rw [if_pos hcont, mapFst_update, ih, if_pos hmem]
      · have hmem : r.category ∉ firstSeenKeys xs := by
          rw [← ih, ← lookup_isSome_iff]
          exact hcont
        rw [if_neg hcont, mapFst_update, List.map_append, ih, if_neg hmem]
        rfl

/-- The map keys are pairwise distinct. -/
theorem group_keys_nodup (xs : List ImageInfo) :
    ((groupImagesByCategory xs).2.map Prod.fst).Nodup := by
  rw [group_keys]
  induction xs using List.reverseRecOn with
  | nil => exact List.nodup_nil
  | append_singleton xs r ih =>
    unfold firstSeenKeys
    rw [List.foldl_append]
    show (if r.timing = Timing.standalone then firstSeenKeys xs
      else if r.category ∈ firstSeenKeys xs then firstSeenKeys xs
        else firstSeenKeys xs ++ [r.category]).Nodup
    by_cases hst : r.timing = Timing.standalone
    · rw [if_pos hst]
      exact ih
    · rw [if_neg hst]
      by_cases hmem : r.category ∈ firstSeenKeys xs
      · rw [if_pos hmem]
        exact ih
      · rw [if_neg hmem, List.nodup_append]
        refine ⟨ih, List.nodup_singleton _, fun a ha hb => ?_⟩
        exact hmem ((List.mem_singleton.1 hb) ▸ ha)

theorem mem_of_getLastQ {α : Type} {l : List α} {a : α}
    (h : l.getLast? = some a) : a ∈ l := by
  have hne : l ≠ [] := by
    intro he
    rw [he] at h
    exact absurd h (by simp)
  rw [List.getLast?_eq_getLast_of_ne_nil hne] at h
  have hmem := List.getLast_mem hne
  rwa [Option.some_inj.1 h] at hmem

theorem catRecords_ne_nil_of_timing {xs : List ImageInfo} {k : String} {t : Timing}
    (h : timingRecords xs k t ≠ []) (ht : t ≠ Timing.standalone) :
    catRecords xs k ≠ [] := by
  obtain ⟨r, hr⟩ := List.exists_mem_of_ne_nil _ h
  have hr2 := List.mem_filter.1 hr
  simp only [Bool.and_eq_true, beq_iff_eq] at hr2
  apply List.ne_nil_of_mem (a := r)
  apply List.mem_filter.2
  refine ⟨hr2.1, ?_⟩
  simp only [Bool.and_eq_true, beq_iff_eq, bne_iff_ne, ne_eq]
  exact ⟨hr2.2.1, hr2.2.2 ▸ ht⟩

/-- The timing slot of a paired group named by a timing value. -/
def slotOf (g : PairGroup) : Timing → Option ImageInfo
  | Timing.before => g.before
  | Timing.after => g.after
  | Timing.standalone => none

/-! ## Claim C6 -/

/-- C6: when two or more records share a category and a non-standalone
timing, the corresponding slot of that category's group holds exactly the
record occurring latest in the sequence (the last element of the filtered
subsequence); the earlier ones are not stored anywhere — last write wins,
with no error and no merging. -/
theorem groupImagesByCategory_lastWriteWins (xs : List ImageInfo) (k : String)
    (t : Timing) (ht : t ≠ Timing.standalone)
    (hcount : 2 ≤ (timingRecords xs k t).length) :
    ∃ g, lookupKey k (groupImagesByCategory xs).2 = some g ∧
      slotOf g t = (timingRecords xs k t).getLast? := by
  have hne : timingRecords xs k t ≠ [] := by
    intro he
    rw [he] at hcount
    exact absurd hcount (by simp)
  have hcat : catRecords xs k ≠ [] := catRecords_ne_nil_of_timing hne ht
  refine ⟨⟨(timingRecords xs k Timing.before).getLast?,
           (timingRecords xs k Timing.after).getLast?,
           specOrder (catRecords xs k)⟩, ?_, ?_⟩
  · rw [group_lookup, if_neg hcat]
  · cases t with
    | before => rfl
    | after => rfl
    | standalone => exact absurd rfl ht

/-- Witness for the C6 theorem: two before records of the same category. -/
theorem groupImagesByCategory_lastWriteWins_witness :
    ∃ g, lookupKey "c"
        (groupImagesByCategory
          [⟨"c", "s1", "c", Timing.before, 1⟩,
           ⟨"c", "s2", "c", Timing.before, 5⟩]).2 = some g ∧
      slotOf g Timing.before =
        (timingRecords
          [⟨"c", "s1", "c", Timing.before, 1⟩,
           ⟨"c", "s2", "c", Timing.before, 5⟩] "c" Timing.before).getLast? :=
  groupImagesByCategory_lastWriteWins
    [⟨"c", "s1", "c", Timing.before, 1⟩, ⟨"c", "s2", "c", Timing.before, 5⟩]
    "c" Timing.before (by decide) (by decide)

/-! ## Claim C7 -/

theorem specOrder_is_min :
    ∀ (l : List ImageInfo), l ≠ [] →
      (∃ r ∈ l, specOrder l = r.order) ∧ ∀ r ∈ l, specOrder l ≤ r.order := by
  intro l
  induction l using List.reverseRecOn with
  | nil => intro h; exact absurd rfl h
  | append_singleton l r ih =>
    intro _
    rcases hl : l with - | ⟨x, t⟩
    · constructor
      · exact ⟨r, by simp [specOrder]⟩
      · intro r' hr'
        simp only [List.nil_append, List.mem_singleton] at hr'
        simp [hr', specOrder]
    · rw [← hl]
      have hlne : l ≠ [] := by rw [hl]; exact List.cons_ne_nil x t
      obtain ⟨⟨w, hw, hweq⟩, hbound⟩ := ih hlne
      rw [specOrder_append hlne]
      constructor
      · rcases Nat.le_total (specOrder l) r.order with hle | hge
        · exact ⟨w, List.mem_append_left _ hw, by rw [Nat.min_eq_left hle]; exact hweq⟩
        · exact ⟨r, List.mem_append_right _ (List.mem_singleton.2 rfl),
            Nat.min_eq_right hge⟩
      · intro r' hr'
        rcases List.mem_append.1 hr' with hr1 | hr2
        · exact Nat.le_trans (Nat.min_le_left _ _) (hbound r' hr1)
        · rw [List.mem_singleton.1 hr2]
          exact Nat.min_le_right _ _

/-- C7: the order of every paired group equals the minimum of the order
fields over all non-standalone records of its category in the input,
including records whose slot entry was later overwritten. -/
theorem groupImagesByCategory_order_min (xs : List ImageInfo) (k : String)
    (g : PairGroup) (h : lookupKey k (groupImagesByCategory xs).2 = some g) :
    (∃ r ∈ catRecords xs k, g.order = r.order) ∧
      ∀ r ∈ catRecords xs k, g.order ≤ r.order := by
  rw [group_lookup] at h
  by_cases hcat : catRecords xs k = []
  · rw [if_pos hcat] at h
    exact absurd h (by simp)
  · rw [if_neg hcat] at h
    have hg : g.order = specOrder (catRecords xs k) := by
      rw [← Option.some_inj.1 h]
    obtain ⟨hmem, hbound⟩ := specOrder_is_min (catRecords xs k) hcat
    exact ⟨hg ▸ hmem, fun r hr => hg ▸ hbound r hr⟩

/-- Witness for the C7 theorem: a category whose first record was
overwritten but still determines the group order. -/
theorem groupImagesByCategory_order_min_witness :
    (∃ r ∈ catRecords
        [⟨"c", "s1", "c", Timing.before, 1⟩,
         ⟨"c", "s2", "c", Timing.before, 5⟩] "c",
      (⟨some ⟨"c", "s2", "c", Timing.before, 5⟩, none, 1⟩ : PairGroup).order = r.order) ∧
      ∀ r ∈ catRecords
        [⟨"c", "s1", "c", Timing.before, 1⟩,
         ⟨"c", "s2", "c", Timing.before, 5⟩] "c",
        (⟨some ⟨"c", "s2", "c", Timing.before, 5⟩, none, 1⟩ : PairGroup).order ≤ r.order :=
  groupImagesByCategory_order_min
    [⟨"c", "s1", "c", Timing.before, 1⟩, ⟨"c", "s2", "c", Timing.before, 5⟩]
    "c" ⟨some ⟨"c", "s2", "c", Timing.before, 5⟩, none, 1⟩ (by decide)

/-! ## Claim C10 -/

/-- C10: every group stored in the paired map has at least one slot filled,
and a filled slot holds a record whose timing names that slot and whose
category equals the key under which the group is stored. -/
theorem groupImagesByCategory_invariants (xs : List ImageInfo) (k : String)
    (g : PairGroup) (h : lookupKey k (groupImagesByCategory xs).2 = some g) :
    (g.before.isSome = true ∨ g.after.isSome = true) ∧
      (∀ r, g.before = some r → r.timing = Timing.before ∧ r.category = k) ∧
      (∀ r, g.after = some r → r.timing = Timing.after ∧ r.category = k) := by
  rw [group_lookup] at h
  by_cases hcat : catRecords xs k = []
  · rw [if_pos hcat] at h
    exact absurd h (by simp)
  · rw [if_neg hcat] at h
    have hg := Option.some_inj.1 h
    refine ⟨?_, ?_, ?_⟩
    · obtain ⟨r0, hr0⟩ := List.exists_mem_of_ne_nil _ hcat
      have hr0' := List.mem_filter.1 hr0
      simp only [Bool.and_eq_true, beq_iff_eq, bne_iff_ne, ne_eq] at hr0'
      rcases htim : r0.timing with - | - | -
      · left
        rw [← hg]
        simp only
        rw [List.getLast?_isSome]
        apply List.ne_nil_of_mem (a := r0)
        apply List.mem_filter.2
        simp only [Bool.and_eq_true, beq_iff_eq]
        exact ⟨hr0'.1, hr0'.2.1, htim⟩
      · right
        rw [← hg]
        simp only
        rw [List.getLast?_isSome]
        apply List.ne_nil_of_mem (a := r0)
        apply List.mem_filter.2
        simp only [Bool.and_eq_true, beq_iff_eq]
        exact ⟨hr0'.1, hr0'.2.1, htim⟩
      · exact absurd htim hr0'.2.2
    · intro r hr
      rw [← hg] at hr
      simp only at hr
      have := List.mem_filter.1 (mem_of_getLastQ hr)
      simp only [Bool.and_eq_true, beq_iff_eq] at this
      exact ⟨this.2.2, this.2.1⟩
    · intro r hr
      rw [← hg] at hr
      simp only at hr
      have := List.mem_filter.1 (mem_of_getLastQ hr)
      simp only [Bool.and_eq_true, beq_iff_eq] at this
      exact ⟨this.2.2, this.2.1⟩

/-- Witness for the C10 theorem: a half-filled group. -/
theorem groupImagesByCategory_invariants_witness :
    ((⟨some ⟨"c", "s2", "c", Timing.before, 5⟩, none, 1⟩ : PairGroup).before.isSome = true ∨
      (⟨some ⟨"c", "s2", "c", Timing.before, 5⟩, none, 1⟩ : PairGroup).after.isSome = true) ∧
      (∀ r, (⟨some ⟨"c", "s2", "c", Timing.before, 5⟩, none, 1⟩ : PairGroup).before = some r →
        r.timing = Timing.before ∧ r.category = "c") ∧
      (∀ r, (⟨some ⟨"c", "s2", "c", Timing.before, 5⟩, none, 1⟩ : PairGroup).after = some r →
        r.timing = Timing.after ∧ r.category = "c") :=
  groupImagesByCategory_invariants
    [⟨"c", "s1", "c", Timing.before, 1⟩, ⟨"c", "s2", "c", Timing.before, 5⟩]
    "c" ⟨some ⟨"c", "s2", "c", Timing.before, 5⟩, none, 1⟩ (by decide)

/-! ## Claim C3 -/

/-- The before/after records stored in the paired groups, flattened back into
a record sequence in map order (before slot first within each group). -/
def flattenGroups (m : List (String × PairGroup)) : List ImageInfo :=
  (m.map fun kg => kg.2.before.toList ++ kg.2.after.toList).flatten

/-- A grouping output flattened back into a record sequence: the standalone
sequence followed by the paired groups' records. -/
def flattenGrouping (p : List ImageInfo × List (String × PairGroup)) :
    List ImageInfo :=
  p.1 ++ flattenGroups p.2

/-- Minimum order over the records remaining in the slots of a group. -/
def survivingOrder (g : PairGroup) : Nat :=
  specOrder (g.before.toList ++ g.after.toList)

/-- A group with its order replaced by the minimum over surviving records. -/
def adjustOrder (g : PairGroup) : PairGroup :=
  ⟨g.before, g.after, survivingOrder g⟩

/-- Slot records match their key and timing, and some slot is filled. -/
def goodMap (m : List (String × PairGroup)) : Prop :=
  ∀ kg ∈ m,
    (∀ r, kg.2.before = some r → r.timing = Timing.before ∧ r.category = kg.1) ∧
    (∀ r, kg.2.after = some r → r.timing = Timing.after ∧ r.category = kg.1) ∧
    (kg.2.before.isSome = true ∨ kg.2.after.isSome = true)

/-- C3 counterexample: regrouping the flattened output of a grouping does not
preserve group orders when a record holding the group minimum was
overwritten — the group order jumps from 1 to 5 here. -/
theorem groupImagesByCategory_roundTrip_counterexample :
    (lookupKey "c" (groupImagesByCategory (flattenGrouping (groupImagesByCategory
        [⟨"c", "s1", "c", Timing.before, 1⟩,
         ⟨"c", "s2", "c", Timing.before, 5⟩]))).2).map PairGroup.order ≠
      (lookupKey "c" (groupImagesByCategory
        [⟨"c", "s1", "c", Timing.before, 1⟩,
         ⟨"c", "s2", "c", Timing.before, 5⟩]).2).map PairGroup.order := by
  decide

theorem lookup_of_mem :
    ∀ {m : List (String × PairGroup)}, (m.map Prod.fst).Nodup →
      ∀ {k : String} {g : PairGroup}, (k, g) ∈ m → lookupKey k m = some g := by
  intro m
  induction m with
  | nil => intro _ k g h; simp at h
  | cons kv t ih =>
    intro hnd k g h
    obtain ⟨k', g'⟩ := kv
    rw [List.map_cons, List.nodup_cons] at hnd
    rcases List.mem_cons.1 h with he | ht
    · injection he with hk hg
      subst hk
      subst hg
      rw [lookupKey, if_pos rfl]
    · have hkmem : k ∈ t.map Prod.fst :=
        List.mem_map.2 ⟨(k, g), ht, rfl⟩
      have hk' : k' ≠ k := fun he => hnd.1 (he ▸ hkmem)
      rw [lookupKey, if_neg hk']
      exact ih hnd.2 ht

theorem mem_of_lookup :
    ∀ {m : List (String × PairGroup)} {k : String} {g : PairGroup},
      lookupKey k m = some g → (k, g) ∈ m := by
  intro m
  induction m with
  | nil => intro k g h; exact absurd h (by simp [lookupKey])
  | cons kv t ih =>
    intro k g h
    obtain ⟨k', g'⟩ := kv
    rw [lookupKey] at h
    by_cases hk : k' = k
    · rw [if_pos hk] at h
      exact List.mem_cons.2 (Or.inl (by rw [hk, Option.some_inj.1 h]))
    · rw [if_neg hk] at h
      exact List.mem_cons.2 (Or.inr (ih h))

theorem lookup_map_adjust (f : PairGroup → PairGroup) (k : String) :
    ∀ m : List (String × PairGroup),
      lookupKey k (m.map fun kg => (kg.1, f kg.2)) = (lookupKey k m).map f := by
  intro m
  induction m with
  | nil => rfl
  | cons kv t ih =>
    obtain ⟨k', g⟩ := kv
    by_cases hk : k' = k <;> simp [lookupKey, hk, ih]

theorem assoc_ext :
    ∀ {m₁ m₂ : List (String × PairGroup)},
      m₁.map Prod.fst = m₂.map Prod.fst → (m₁.map Prod.fst).Nodup →
      (∀ k, lookupKey k m₁ = lookupKey k m₂) → m₁ = m₂ := by
  intro m₁
  induction m₁ with
  | nil =>
    intro m₂ hk _ _
    exact (List.map_eq_nil_iff.1 hk.symm).symm
  | cons kv t ih =>
    intro m₂ hk hnd hlook
    obtain ⟨k, g⟩ := kv
    rcases m₂ with - | ⟨⟨k₂, g₂⟩, t₂⟩
    · exact absurd hk (by simp)
    · rw [List.map_cons, List.map_cons] at hk
      rw [List.map_cons, List.nodup_cons] at hnd
      injection hk with hkk hkeys
      subst hkk
      have hg : g = g₂ := by
        have h1 := hlook k
        rw [lookupKey, if_pos rfl, lookupKey, if_pos rfl] at h1
        exact Option.some_inj.1 h1
      subst hg
      have hndt : (t.map Prod.fst).Nodup := hnd.2
      have hknot : k ∉ t.map Prod.fst := hnd.1
      have hlook' : ∀ k', lookupKey k' t = lookupKey k' t₂ := by
        intro k'
        by_cases hk' : k' = k
        · subst hk'
          rw [(lookup_none_iff k' t).2 hknot,
            (lookup_none_iff k' t₂).2 (hkeys ▸ hknot)]
        · have h1 := hlook k'
          rw [lookupKey, if_neg (fun he => hk' he.symm),
            lookupKey, if_neg (fun he => hk' he.symm)] at h1
          exact h1
      rw [ih hkeys hndt hlook']

/-- Slot facts of a looked-up group: filled slots match the key and the slot
timing, and at least one slot is filled. -/
theorem group_slot_facts {xs : List ImageInfo} {k : String} {g : PairGroup}
    (h : lookupKey k (groupImagesByCategory xs).2 = some g) :
    (∀ r, g.before = some r → r.timing = Timing.before ∧ r.category = k) ∧
      (∀ r, g.after = some r → r.timing = Timing.after ∧ r.category = k) ∧
      (g.before.isSome = true ∨ g.after.isSome = true) := by
  rw [group_lookup] at h
  by_cases hcat : catRecords xs k = []
  · rw [if_pos hcat] at h
    exact absurd h (by simp)
  · rw [if_neg hcat] at h
    have hg := Option.some_inj.1 h
    refine ⟨?_, ?_, ?_⟩
    · intro r hr
      rw [← hg] at hr
      simp only at hr
      have := List.mem_filter.1 (mem_of_getLastQ hr)
      simp only [Bool.and_eq_true, beq_iff_eq] at this
      exact ⟨this.2.2, this.2.1⟩
    · intro r hr
      rw [← hg] at hr
      simp only at hr
      have := List.mem_filter.1 (mem_of_getLastQ hr)
      simp only [Bool.and_eq_true, beq_iff_eq] at this
      exact ⟨this.2.2, this.2.1⟩
    · obtain ⟨r0, hr0⟩ := List.exists_mem_of_ne_nil _ hcat
      have hr0' := List.mem_filter.1 hr0
      simp only [Bool.and_eq_true, beq_iff_eq, bne_iff_ne, ne_eq] at hr0'
      rcases htim : r0.timing with - | - | -
      · left
        rw [← hg]
        simp only
        rw [List.getLast?_isSome]
        apply List.ne_nil_of_mem (a := r0)
        apply List.mem_filter.2
        simp only [Bool.and_eq_true, beq_iff_eq]
        exact ⟨hr0'.1, hr0'.2.1, htim⟩
      · right
        rw [← hg]
        simp only
        rw [List.getLast?_isSome]
        apply List.ne_nil_of_mem (a := r0)
        apply List.mem_filter.2
        simp only [Bool.and_eq_true, beq_iff_eq]
        exact ⟨hr0'.1, hr0'.2.1, htim⟩
      · exact absurd htim hr0'.2.2

/-- The paired map produced by grouping satisfies the slot facts. -/
theorem group_map_good (xs : List ImageInfo) :
    goodMap (groupImagesByCategory xs).2 := by
  intro kg hkg
  obtain ⟨k, g⟩ := kg
  exact group_slot_facts (lookup_of_mem (group_keys_nodup xs) hkg)

theorem flattenGroups_cons (k' : String) (g' : PairGroup)
    (t : List (String × PairGroup)) :
    flattenGroups ((k', g') :: t) =
      (g'.before.toList ++ g'.after.toList) ++ flattenGroups t := by
  unfold flattenGroups
  rw [List.map_cons, List.flatten_cons]

theorem filter_toList_true {o : Option ImageInfo} {p : ImageInfo → Bool}
    (h : ∀ r, o = some r → p r = true) : o.toList.filter p = o.toList := by
  cases o with
  | none => rfl
  | some r => simp [List.filter_cons, h r rfl]

theorem filter_toList_false {o : Option ImageInfo} {p : ImageInfo → Bool}
    (h : ∀ r, o = some r → p r = false) : o.toList.filter p = [] := by
  cases o with
  | none => rfl
  | some r => simp [List.filter_cons, h r rfl]

theorem catRecords_flattenGroups (k : String) :
    ∀ {m : List (String × PairGroup)}, goodMap m → (m.map Prod.fst).Nodup →
      catRecords (flattenGroups m) k =
        (lookupKey k m).elim [] fun g => g.before.toList ++ g.after.toList := by
  intro m
  induction m with
  | nil => intro _ _; rfl
  | cons kg t ih =>
    intro hg hnd
    obtain ⟨k', g'⟩ := kg
    rw [List.map_cons, List.nodup_cons] at hnd
    have hgood := hg (k', g') (List.mem_cons_self _ _)
    have hgt : goodMap t := fun x hx => hg x (List.mem_cons_of_mem _ hx)
    rw [flattenGroups_cons]
    show List.filter _ _ = _
    rw [List.filter_append]
    by_cases hk : k' = k
    · subst hk
      have h1 : (g'.before.toList ++ g'.after.toList).filter
          (fun r => r.category == k' && r.timing != Timing.standalone) =
          g'.before.toList ++ g'.after.toList := by
        rw [List.filter_append,
          filter_toList_true (fun r hr => by
            have hf := hgood.1 r hr
            simp [hf.1, hf.2]),
          filter_toList_true (fun r hr => by
            have hf := hgood.2.1 r hr
            simp [hf.1, hf.2])]
      have h2 : List.filter
          (fun r => r.category == k' && r.timing != Timing.standalone)
          (flattenGroups t) = [] := by
        have h3 := ih hgt hnd.2
        rw [(lookup_none_iff k' t).2 hnd.1] at h3
        exact h3
      rw [h1, h2, List.append_nil, lookupKey, if_pos rfl]
      rfl
    · have h1 : (g'.before.toList ++ g'.after.toList).filter
          (fun r => r.category == k && r.timing != Timing.standalone) = [] := by
        rw [List.filter_append,
          filter_toList_false (fun r hr => by
            have hf := hgood.1 r hr
            simp [hf.2, hk]),
          filter_toList_false (fun r hr => by
            have hf := hgood.2.1 r hr
            simp [hf.2, hk])]
        rfl
      rw [h1, List.nil_append, lookupKey, if_neg hk]
      exact ih hgt hnd.2

theorem beforeRecords_flattenGroups (k : String) :
    ∀ {m : List (String × PairGroup)}, goodMap m → (m.map Prod.fst).Nodup →
      timingRecords (flattenGroups m) k Timing.before =
        (lookupKey k m).elim [] fun g => g.before.toList := by
  intro m
  induction m with
  | nil => intro _ _; rfl
  | cons kg t ih =>
    intro hg hnd
    obtain ⟨k', g'⟩ := kg
    rw [List.map_cons, List.nodup_cons] at hnd
    have hgood := hg (k', g') (List.mem_cons_self _ _)
    have hgt : goodMap t := fun x hx => hg x (List.mem_cons_of_mem _ hx)
    rw [flattenGroups_cons]
    show List.filter _ _ = _
    rw [List.filter_append]
    by_cases hk : k' = k
    · subst hk
      have h1 : (g'.before.toList ++ g'.after.toList).filter
          (fun r => r.category == k' && r.timing == Timing.before) =
          g'.before.toList := by
        rw [List.filter_append,
          filter_toList_true (fun r hr => by
            have hf := hgood.1 r hr
            simp [hf.1, hf.2]),
          filter_toList_false (fun r hr => by
            have hf := hgood.2.1 r hr
            simp [hf.1, hf.2]),
          List.append_nil]
      have h2 : List.filter
          (fun r => r.category == k' && r.timing == Timing.before)
          (flattenGroups t) = [] := by
        have h3 := ih hgt hnd.2
        rw [(lookup_none_iff k' t).2 hnd.1] at h3
        exact h3
      rw [h1, h2, List.append_nil, lookupKey, if_pos rfl]
      rfl
    · have h1 : (g'.before.toList ++ g'.after.toList).filter
          (fun r => r.category == k && r.timing == Timing.before) = [] := by
        rw [List.filter_append,
          filter_toList_false (fun r hr => by
            have hf := hgood.1 r hr
            simp [hf.2, hk]),
          filter_toList_false (fun r hr => by
            have hf := hgood.2.1 r hr
            simp [hf.2, hk])]
        rfl
      rw [h1, List.nil_append, lookupKey, if_neg hk]
      exact ih hgt hnd.2

theorem afterRecords_flattenGroups (k : String) :
    ∀ {m : List (String × PairGroup)}, goodMap m → (m.map Prod.fst).Nodup →
      timingRecords (flattenGroups m) k Timing.after =
        (lookupKey k m).elim [] fun g => g.after.toList := by
  intro m
  induction m with
  | nil => intro _ _; rfl
  | cons kg t ih =>
    intro hg hnd
    obtain ⟨k', g'⟩ := kg
    rw [List.map_cons, List.nodup_cons] at hnd
    have hgood := hg (k', g') (List.mem_cons_self _ _)
    have hgt : goodMap t := fun x hx => hg x (List.mem_cons_of_mem _ hx)
    rw [flattenGroups_cons]
    show List.filter _ _ = _
    rw [List.filter_append]
    by_cases hk : k' = k
    · subst hk
      have h1 : (g'.before.toList ++ g'.after.toList).filter
          (fun r => r.category == k' && r.timing == Timing.after) =
          g'.after.toList := by
        rw [List.filter_append,
          filter_toList_false (fun r hr => by
            have hf := hgood.1 r hr
            simp [hf.1, hf.2]),
          filter_toList_true (fun r hr => by
            have hf := hgood.2.1 r hr
            simp [hf.1, hf.2]),
          List.nil_append]
      have h2 : List.filter
          (fun r => r.category == k' && r.timing == Timing.after)
          (flattenGroups t) = [] := by
        have h3 := ih hgt hnd.2
        rw [(lookup_none_iff k' t).2 hnd.1] at h3
        exact h3
      rw [h1, h2, List.append_nil, lookupKey, if_pos rfl]
      rfl
    · have h1 : (g'.before.toList ++ g'.after.toList).filter
          (fun r => r.category == k && r.timing == Timing.after) = [] := by
        rw [List.filter_append,
          filter_toList_false (fun r hr => by
            have hf := hgood.1 r hr
            simp [hf.2, hk]),
          filter_toList_false (fun r hr => by
            have hf := hgood.2.1 r hr
            simp [hf.2, hk])]
        rfl
      rw [h1, List.nil_append, lookupKey, if_neg hk]
      exact ih hgt hnd.2

theorem fsStep_standalone {ks : List String} {r : ImageInfo}
    (h : r.timing = Timing.standalone) : fsStep ks r = ks := by
  unfold fsStep
  rw [if_pos h]

theorem fsStep_new {ks : List String} {r : ImageInfo}
    (h1 : r.timing ≠ Timing.standalone) (h2 : r.category ∉ ks) :
    fsStep ks r = ks ++ [r.category] := by
  unfold fsStep
  rw [if_neg h1, if_neg h2]

theorem fsStep_old {ks : List String} {r : ImageInfo}
    (h1 : r.timing ≠ Timing.standalone) (h2 : r.category ∈ ks) :
    fsStep ks r = ks := by
  unfold fsStep
  rw [if_neg h1, if_pos h2]

theorem foldl_fsStep_standalone :
    ∀ {s : List ImageInfo}, (∀ r ∈ s, r.timing = Timing.standalone) →
      ∀ ks, s.foldl fsStep ks = ks := by
  intro s
  induction s with
  | nil => intro _ ks; rfl
  | cons r t ih =>
    intro h ks
    rw [List.foldl_cons, fsStep_standalone (h r (List.mem_cons_self r t))]
    exact ih (fun x hx => h x (List.mem_cons_of_mem _ hx)) ks

theorem foldl_fsStep_flatten :
    ∀ {m : List (String × PairGroup)}, goodMap m → (m.map Prod.fst).Nodup →
      ∀ ks, (∀ x ∈ m.map Prod.fst, x ∉ ks) →
        (flattenGroups m).foldl fsStep ks = ks ++ m.map Prod.fst := by
  intro m
  induction m with
  | nil => intro _ _ ks _; simp [flattenGroups]
  | cons kg t ih =>
    intro hg hnd ks hks
    obtain ⟨k', g'⟩ := kg
    rw [List.map_cons, List.nodup_cons] at hnd
    have hgood := hg (k', g') (List.mem_cons_self _ _)
    have hgt : goodMap t := fun x hx => hg x (List.mem_cons_of_mem _ hx)
    have hknotks : k' ∉ ks := hks k' (by simp)
    rw [flattenGroups_cons, List.foldl_append]
    have hslot : (g'.before.toList ++ g'.after.toList).foldl fsStep ks =
        ks ++ [k'] := by
      rcases hb : g'.before with - | b <;> rcases ha : g'.after with - | a
      · rcases hgood.2.2 with hs | hs
        · rw [hb] at hs; exact absurd hs (by simp)
        · rw [ha] at hs; exact absurd hs (by simp)
      · have hfa := hgood.2.1 a ha
        show List.foldl fsStep ks [a] = ks ++ [k']
        rw [List.foldl_cons, List.foldl_nil,
          fsStep_new (by rw [hfa.1]; simp) (hfa.2 ▸ hknotks), hfa.2]
      · have hfb := hgood.1 b hb
        show List.foldl fsStep ks [b] = ks ++ [k']
        rw [List.foldl_cons, List.foldl_nil,
          fsStep_new (by rw [hfb.1]; simp) (hfb.2 ▸ hknotks), hfb.2]
      · have hfb := hgood.1 b hb
        have hfa := hgood.2.1 a ha
        show List.foldl fsStep ks [b, a] = ks ++ [k']
        rw [List.foldl_cons,
          fsStep_new (by rw [hfb.1]; simp) (hfb.2 ▸ hknotks), hfb.2,
          List.foldl_cons, List.foldl_nil,
          fsStep_old (by rw [hfa.1]; simp)
            (by rw [hfa.2]; exact List.mem_append_right _ (List.mem_singleton.2 rfl))]
    rw [hslot, ih hgt hnd.2 (ks ++ [k'])
      (fun x hx hmem => by
        rcases List.mem_append.1 hmem with h1 | h1
        · exact hks x (List.mem_cons_of_mem _ hx) h1
        · exact hnd.1 ((List.mem_singleton.1 h1) ▸ hx)),
      List.append_assoc]
    rfl

/-- Regrouping a flattened well-formed grouping output reproduces it, except
that each group order becomes the minimum over its surviving slot records. -/
theorem group_flatten_eq {s : List ImageInfo} {m : List (String × PairGroup)}
    (hs : ∀ r ∈ s, r.timing = Timing.standalone)
    (hg : goodMap m) (hnd : (m.map Prod.fst).Nodup) :
    groupImagesByCategory (s ++ flattenGroups m) =
      (s, m.map fun kg => (kg.1, adjustOrder kg.2)) := by
  have hfst : (groupImagesByCategory (s ++ flattenGroups m)).1 = s := by
    rw [group_fst, List.filter_append]
    have h1 : s.filter (fun r => r.timing == Timing.standalone) = s :=
      List.filter_eq_self.2 fun r hr => by simp [hs r hr]
    have h2 : (flattenGroups m).filter (fun r => r.timing == Timing.standalone) = [] := by
      rw [List.filter_eq_nil_iff]
      intro r hr
      obtain ⟨l, hl, hrl⟩ := List.mem_flatten.1 hr
      obtain ⟨kg, hkg, rfl⟩ := List.mem_map.1 hl
      have hgood := hg kg hkg
      rcases List.mem_append.1 hrl with h | h
      · have hsome : kg.2.before = some r := by
          rcases hbo : kg.2.before with - | b
          · rw [hbo] at h; exact absurd h (by simp)
          · rw [hbo] at h
            simp only [Option.toList_some, List.mem_singleton] at h
            rw [h]
        have := hgood.1 r hsome
        simp [this.1]
      · have hsome : kg.2.after = some r := by
          rcases hao : kg.2.after with - | a
          · rw [hao] at h; exact absurd h (by simp)
          · rw [hao] at h
            simp only [Option.toList_some, List.mem_singleton] at h
            rw [h]
        have := hgood.2.1 r hsome
        simp [this.1]
    rw [h1, h2, List.append_nil]
  have hsnd : (groupImagesByCategory (s ++ flattenGroups m)).2 =
      m.map fun kg => (kg.1, adjustOrder kg.2) := by
    apply assoc_ext
    · rw [group_keys]
      unfold firstSeenKeys
      rw [List.foldl_append, foldl_fsStep_standalone hs,
        foldl_fsStep_flatten hg hnd [] (by simp), List.nil_append, List.map_map]
      rfl
    · exact group_keys_nodup _
    · intro k
      rw [lookup_map_adjust, group_lookup]
      have hsplit : catRecords (s ++ flattenGroups m) k =
          catRecords s k ++ catRecords (flattenGroups m) k := by
        unfold catRecords
        rw [List.filter_append]
      have hcs : catRecords s k = [] := by
        unfold catRecords
        rw [List.filter_eq_nil_iff]
        intro r hr
        simp [hs r hr]
      have hcat : catRecords (s ++ flattenGroups m) k =
          (lookupKey k m).elim [] fun g => g.before.toList ++ g.after.toList := by
        rw [hsplit, hcs, List.nil_append, catRecords_flattenGroups k hg hnd]
      have hbsplit : timingRecords (s ++ flattenGroups m) k Timing.before =
          timingRecords s k Timing.before ++
            timingRecords (flattenGroups m) k Timing.before := by
        unfold timingRecords
        rw [List.filter_append]
      have hbs : timingRecords s k Timing.before = [] := by
        unfold timingRecords
        rw [List.filter_eq_nil_iff]
        intro r hr
        simp [hs r hr]
      have hbef : timingRecords (s ++ flattenGroups m) k Timing.before =
          (lookupKey k m).elim [] fun g => g.before.toList := by
        rw [hbsplit, hbs, List.nil_append, beforeRecords_flattenGroups k hg hnd]
      have hasplit : timingRecords (s ++ flattenGroups m) k Timing.after =
          timingRecords s k Timing.after ++
            timingRecords (flattenGroups m) k Timing.after := by
        unfold timingRecords
        rw [List.filter_append]
      have has : timingRecords s k Timing.after = [] := by
        unfold timingRecords
        rw [List.filter_eq_nil_iff]
        intro r hr
        simp [hs r hr]
      have haft : timingRecords (s ++ flattenGroups m) k Timing.after =
          (lookupKey k m).elim [] fun g => g.after.toList := by
        rw [hasplit, has, List.nil_append, afterRecords_flattenGroups k hg hnd]
      rcases hlk : lookupKey k m with - | g
      · rw [hlk] at hcat
        simp only [Option.elim] at hcat
        rw [if_pos hcat]
        rfl
      · rw [hlk] at hcat hbef haft
        simp only [Option.elim] at hcat hbef haft
        have hgood := hg (k, g) (mem_of_lookup hlk)
        have hne : catRecords (s ++ flattenGroups m) k ≠ [] := by
          rw [hcat]
          intro hnil
          obtain ⟨hbn, han⟩ := List.append_eq_nil.1 hnil
          rcases hgood.2.2 with hsome | hsome
          · rcases hbo : g.before with - | b
            · rw [hbo] at hsome; exact absurd hsome (by simp)
            · rw [hbo] at hbn; exact absurd hbn (by simp)
          · rcases hao : g.after with - | a
            · rw [hao] at hsome; exact absurd hsome (by simp)
            · rw [hao] at han; exact absurd han (by simp)
        have hgl : ∀ (o : Option ImageInfo), o.toList.getLast? = o := fun o => by
          cases o <;> rfl
        rw [if_neg hne, hcat, hbef, haft, hgl, hgl]
        rfl
  exact Prod.ext hfst hsnd

/-- C3 amended: regrouping the flattened grouping output yields the same
standalone sequence and the same paired groups with the same keys, key order
and before/after slot contents; each regrouped group's order is the minimum
over the records remaining in its slots, which can exceed the original
group's order when an overwritten record held the minimum. -/
theorem groupImagesByCategory_roundTrip (xs : List ImageInfo) :
    groupImagesByCategory (flattenGrouping (groupImagesByCategory xs)) =
      ((groupImagesByCategory xs).1,
       (groupImagesByCategory xs).2.map fun kg =>
         (kg.1, adjustOrder kg.2)) := by
  unfold flattenGrouping
  apply group_flatten_eq
  · intro r hr
    rw [group_fst] at hr
    have := List.mem_filter.1 hr
    simpa using this.2
  · exact group_map_good xs
  · exact group_keys_nodup xs

/-! ## Claim C4: tag-mode / link-mode equivalence -/

/-- The canonical tag-mode document for a label A and a source U:
the single tag <img alt="A" src="U">. -/
def tagInput (A U : List Char) : List Char :=
  '<' :: 'i' :: 'm' :: 'g' :: ' ' :: 'a' :: 'l' :: 't' :: '=' :: '"' ::
    (A ++ ('"' :: ' ' :: 's' :: 'r' :: 'c' :: '=' :: '"' :: (U ++ ['"', '>'])))

/-- The canonical link-mode document for a label A and a source U:
the single markdown image ![A](U). -/
def mdInput (A U : List Char) : List Char :=
  '!' :: '[' :: (A ++ (']' :: '(' :: (U ++ [')'])))

/-- Every ']' in the list, scanned with the given previous character, is
escaped (its preceding character is a backslash): the condition under which
readLabel passes through the whole list without stopping. -/
def noUnescClose (prev : Char) : List Char → Bool
  | [] => true
  | c :: rest => ((c != ']') || (prev == '\\')) && noUnescClose c rest

/-- No suffix of the list of length exactly four matches "src=" case-
insensitively.  Such a suffix would let the src attribute regex match across
the closing quote of the alt attribute value. -/
def srcFree : List Char → Bool
  | [] => true
  | c :: rest =>
    (if (c :: rest).length = 4 then !startsCI "src=".data (c :: rest)
     else true) && srcFree rest

theorem readLabel_through :
    ∀ {prev : Char} {A : List Char} (rest : List Char),
      noUnescClose prev A = true → A.getLastD prev ≠ '\\' →
      readLabel prev (A ++ ']' :: rest) = some (A, rest) := by
  intro prev A
  induction A generalizing prev with
  | nil =>
    intro rest _ hlast
    simp only [List.getLastD] at hlast
    rw [List.nil_append, readLabel, if_pos (by simp [hlast])]
  | cons a A' ih =>
    intro rest hno hlast
    simp only [noUnescClose, Bool.and_eq_true] at hno
    rw [List.getLastD_cons] at hlast
    have h1 := hno.1
    simp only [Bool.or_eq_true, bne_iff_ne, ne_eq, beq_iff_eq] at h1
    rw [List.cons_append, readLabel, if_neg (by
        rcases h1 with h | h
        · simp [h]
        · simp [h]),
      ih rest hno.2 hlast]

theorem readParens_through :
    ∀ {U : List Char} (rest : List Char), '(' ∉ U → ')' ∉ U →
      readParens 1 (U ++ ')' :: rest) = some (U, rest) := by
  intro U
  induction U with
  | nil =>
    intro rest _ _
    rw [List.nil_append, readParens, if_pos (by decide)]
  | cons u U' ih =>
    intro rest hop hcp
    have hu1 : u ≠ '(' := fun h => hop (h ▸ List.mem_cons_self u U')
    have hu2 : u ≠ ')' := fun h => hcp (h ▸ List.mem_cons_self u U')
    have h1 : newDepth 1 u = 1 := by
      unfold newDepth
      rw [if_neg hu1, if_neg hu2]
    rw [List.cons_append, readParens, h1, if_neg (by decide),
      ih rest (fun h => hop (List.mem_cons_of_mem u h))
        (fun h => hcp (List.mem_cons_of_mem u h))]

/-- A scan position whose window does not start a match is skipped. -/
theorem scanAttr_skip {pat : List Char} {c : Char} {r : List Char}
    (h : startsCI pat (c :: r) = false) :
    scanAttr pat (c :: r) = scanAttr pat r := by
  rw [scanAttr, if_neg (by simp [h])]

/-- A scan position whose first window character already mismatches is
skipped. -/
theorem scanAttr_skip1 (p : Char) (pat : List Char) (c : Char) (r : List Char)
    (h : ciChar p c = false) :
    scanAttr (p :: pat) (c :: r) = scanAttr (p :: pat) r :=
  scanAttr_skip (by rw [startsCI, h, Bool.false_and])

/-- At a position where the literal pattern matches and is followed by a
non-empty quote-free run and a closing quote, scanAttr returns that run. -/
theorem scanAttr_hit (p : Char) (pat V W : List Char)
    (hV : V ≠ []) (hq : '"' ∉ V) :
    scanAttr (p :: pat) ((p :: pat) ++ (V ++ '"' :: W)) = some V := by
  rcases V with - | ⟨v, V'⟩
  · exact absurd rfl hV
  have hs : startsCI (p :: pat) (p :: (pat ++ ((v :: V') ++ '"' :: W)))
      = true := by
    rw [← List.cons_append]
    exact startsCI_self_append _ _
  have hd : (p :: (pat ++ ((v :: V') ++ '"' :: W))).drop (p :: pat).length
      = (v :: V') ++ '"' :: W := by
    simp only [List.length_cons, List.drop_succ_cons]
    exact List.drop_left pat _
  have hv : v ≠ '"' := fun h => hq (h ▸ List.mem_cons_self v V')
  rw [List.cons_append, scanAttr, if_pos hs, hd]
  split
  · rename_i heq
    exact absurd heq (by simp)
  · rename_i a t heq
    rw [List.cons_append] at heq
    injection heq with h1 h2
    subst h1
    subst h2
    have hany : ((v :: (V' ++ '"' :: W)).any fun d => decide (d = '"'))
        = true :=
      List.any_eq_true.mpr ⟨'"', by simp, by decide⟩
    rw [if_neg hv, if_pos hany, List.takeWhile_cons,
      if_pos (by simp [hv]),
      takeWhile_append_stop (fun d hd => by
        simp only [decide_eq_true_eq, ne_eq]
        exact fun h => hq (h ▸ List.mem_cons_of_mem v hd)) (by decide)]

/-- Scanning for src=" through the label and past the closing quote of the
alt attribute finds only the real src value. -/
theorem scanAttr_src_through :
    ∀ {A : List Char} (U W : List Char), '"' ∉ A → srcFree A = true →
      U ≠ [] → '"' ∉ U →
      scanAttr ['s', 'r', 'c', '=', '"']
        (A ++ ('"' :: ' ' :: 's' :: 'r' :: 'c' :: '=' :: '"' ::
          (U ++ '"' :: W))) = some U := by
  intro A
  induction A with
  | nil =>
    intro U W _ _ hU hqU
    rw [List.nil_append,
      scanAttr_skip1 's' ['r', 'c', '=', '"'] '"' _ (by decide),
      scanAttr_skip1 's' ['r', 'c', '=', '"'] ' ' _ (by decide)]
    exact scanAttr_hit 's' ['r', 'c', '=', '"'] U W hU hqU
  | cons a A' ih =>
    intro U W hqA hsf hU hqU
    simp only [srcFree, Bool.and_eq_true] at hsf
    have hqA' : '"' ∉ A' := fun h => hqA (List.mem_cons_of_mem a h)
    have hfalse : startsCI ['s', 'r', 'c', '=', '"']
        (a :: (A' ++ ('"' :: ' ' :: 's' :: 'r' :: 'c' :: '=' :: '"' ::
          (U ++ '"' :: W)))) = false := by
      rcases A' with - | ⟨b, A''⟩
      · simp [startsCI, show ciChar 'r' '"' = false from by decide]
      rcases A'' with - | ⟨c, A'''⟩
      · simp [startsCI, show ciChar 'c' '"' = false from by decide]
      rcases A''' with - | ⟨d, A''''⟩
      · simp [startsCI, show ciChar '=' '"' = false from by decide]
      rcases A'''' with - | ⟨e, A5⟩
      · have h4 : startsCI "src=".data [a, b, c, d] = false := by
          have := hsf.1
          rw [if_pos (by simp)] at this
          simpa using this
        simp only [startsCI, Bool.and_eq_false_iff] at h4 ⊢
        rcases h4 with h | h
        · exact Or.inl h
        rcases h with h | h
        · exact Or.inr (Or.inl h)
        rcases h with h | h
        · exact Or.inr (Or.inr (Or.inl h))
        rcases h with h | h
        · exact Or.inr (Or.inr (Or.inr (Or.inl h)))
        · simp at h
      · have he : e ∈ a :: b :: c :: d :: e :: A5 := by simp
        have hne : ciChar '"' e = false := by
          unfold ciChar
          rw [if_neg (by decide)]
          simp only [beq_eq_false_iff_ne, ne_eq]
          exact fun h => hqA (h ▸ he)
        simp [startsCI, hne]
    rw [List.cons_append, scanAttr_skip hfalse]
    exact ih U W hqA' hsf.2 hU hqU

/-- The first alt attribute extracted from the canonical tag is the label. -/
theorem scanAttr_alt_tagInput (A U : List Char) (hA : A ≠ []) (hqA : '"' ∉ A) :
    scanAttr "alt=\"".data (tagInput A U) = some A := by
  have e : "alt=\"".data = ['a', 'l', 't', '=', '"'] := rfl
  rw [e, tagInput,
    scanAttr_skip1 'a' ['l', 't', '=', '"'] '<' _ (by decide),
    scanAttr_skip1 'a' ['l', 't', '=', '"'] 'i' _ (by decide),
    scanAttr_skip1 'a' ['l', 't', '=', '"'] 'm' _ (by decide),
    scanAttr_skip1 'a' ['l', 't', '=', '"'] 'g' _ (by decide),
    scanAttr_skip1 'a' ['l', 't', '=', '"'] ' ' _ (by decide)]
  exact scanAttr_hit 'a' ['l', 't', '=', '"'] A
    (' ' :: 's' :: 'r' :: 'c' :: '=' :: '"' :: (U ++ ['"', '>'])) hA hqA

/-- The first src attribute extracted from the canonical tag is the source. -/
theorem scanAttr_src_tagInput (A U : List Char)
    (hqA : '"' ∉ A) (hsf : srcFree A = true) (hU : U ≠ []) (hqU : '"' ∉ U) :
    scanAttr "src=\"".data (tagInput A U) = some U := by
  have e : "src=\"".data = ['s', 'r', 'c', '=', '"'] := rfl
  rw [e, tagInput,
    scanAttr_skip1 's' ['r', 'c', '=', '"'] '<' _ (by decide),
    scanAttr_skip1 's' ['r', 'c', '=', '"'] 'i' _ (by decide),
    scanAttr_skip1 's' ['r', 'c', '=', '"'] 'm' _ (by decide),
    scanAttr_skip1 's' ['r', 'c', '=', '"'] 'g' _ (by decide),
    scanAttr_skip1 's' ['r', 'c', '=', '"'] ' ' _ (by decide),
    scanAttr_skip1 's' ['r', 'c', '=', '"'] 'a' _ (by decide),
    scanAttr_skip1 's' ['r', 'c', '=', '"'] 'l' _ (by decide),
    scanAttr_skip1 's' ['r', 'c', '=', '"'] 't' _ (by decide),
    scanAttr_skip1 's' ['r', 'c', '=', '"'] '=' _ (by decide),
    scanAttr_skip1 's' ['r', 'c', '=', '"'] '"' _ (by decide)]
  exact scanAttr_src_through U ['>'] hqA hsf hU hqU

/-- Every element of the list satisfies the predicate, so takeWhile keeps
the whole list. -/
theorem takeWhile_all {p : Char → Bool} :
    ∀ {l : List Char}, (∀ c ∈ l, p c = true) → l.takeWhile p = l := by
  intro l
  induction l with
  | nil => intro _; rfl
  | cons c t ih =>
    intro h
    rw [List.takeWhile_cons, if_pos (h c (List.mem_cons_self c t)),
      ih fun d hd => h d (List.mem_cons_of_mem c hd)]

/-- The canonical tag is matched whole by the img tag regex, with nothing
left over, when neither the label nor the source contains '>'. -/
theorem findImgTag_tagInput (A U : List Char) (hgA : '>' ∉ A)
    (hgU : '>' ∉ U) :
    findImgTag (tagInput A U) = some (tagInput A U, []) := by
  have htail : List.takeWhile (fun d => decide (d ≠ '>')) ['"', '>']
      = ['"'] := by decide
  have htw : List.takeWhile (fun d => decide (d ≠ '>'))
      (' ' :: 'a' :: 'l' :: 't' :: '=' :: '"' ::
        (A ++ ('"' :: ' ' :: 's' :: 'r' :: 'c' :: '=' :: '"' ::
          (U ++ ['"', '>']))))
      = ' ' :: 'a' :: 'l' :: 't' :: '=' :: '"' ::
        (A ++ ('"' :: ' ' :: 's' :: 'r' :: 'c' :: '=' :: '"' ::
          (U ++ ['"']))) := by
    rw [List.takeWhile_cons, if_pos (by decide),
      List.takeWhile_cons, if_pos (by decide),
      List.takeWhile_cons, if_pos (by decide),
      List.takeWhile_cons, if_pos (by decide),
      List.takeWhile_cons, if_pos (by decide),
      List.takeWhile_cons, if_pos (by decide),
      takeWhile_append_all (fun c hc => by
        simp only [decide_eq_true_eq, ne_eq]
        exact fun h => hgA (h ▸ hc)),
      List.takeWhile_cons, if_pos (by decide),
      List.takeWhile_cons, if_pos (by decide),
      List.takeWhile_cons, if_pos (by decide),
      List.takeWhile_cons, if_pos (by decide),
      List.takeWhile_cons, if_pos (by decide),
      List.takeWhile_cons, if_pos (by decide),
      List.takeWhile_cons, if_pos (by decide),
      takeWhile_append_all (fun c hc => by
        simp only [decide_eq_true_eq, ne_eq]
        exact fun h => hgU (h ▸ hc)),
      htail]
  have hdropL : ∀ l : List Char, (l ++ ['>']).drop (l.length + 1) = [] := by
    intro l
    rw [show l.length + 1 = (l ++ ['>']).length by simp]
    exact List.drop_length _
  have hany : ((' ' :: 'a' :: 'l' :: 't' :: '=' :: '"' ::
      (A ++ ('"' :: ' ' :: 's' :: 'r' :: 'c' :: '=' :: '"' ::
        (U ++ ['"', '>'])))).any fun d => decide (d = '>')) = true :=
    List.any_eq_true.mpr ⟨'>', by simp, by decide⟩
  rw [tagInput, findImgTag,
    if_pos (by simp [show "img".data = ['i', 'm', 'g'] from rfl,
      startsCI, ciChar_self])]
  simp only [List.drop_succ_cons, List.drop_zero]
  rw [if_neg (show ¬(' ' = '>') from by decide), if_pos hany, htw]
  rw [show List.drop ((' ' :: 'a' :: 'l' :: 't' :: '=' :: '"' ::
      (A ++ ('"' :: ' ' :: 's' :: 'r' :: 'c' :: '=' :: '"' ::
        (U ++ ['"'])))).length)
      ('a' :: 'l' :: 't' :: '=' :: '"' ::
        (A ++ ('"' :: ' ' :: 's' :: 'r' :: 'c' :: '=' :: '"' ::
          (U ++ ['"', '>'])))) = [] from by
    rw [List.length_cons,
      show ('a' :: 'l' :: 't' :: '=' :: '"' ::
        (A ++ ('"' :: ' ' :: 's' :: 'r' :: 'c' :: '=' :: '"' ::
          (U ++ ['"', '>']))))
        = ('a' :: 'l' :: 't' :: '=' :: '"' ::
          (A ++ ('"' :: ' ' :: 's' :: 'r' :: 'c' :: '=' :: '"' ::
            (U ++ ['"'])))) ++ ['>'] from by simp]
    exact hdropL _]
  simp

/-- Evaluation of the scanning loop of parseImages when the first match is
known. -/
theorem scanImgs_some {cs tag rem : List Char}
    (h : findImgTag cs = some (tag, rem)) :
    scanImgs cs = tag :: scanImgs rem := by
  rw [scanImgs]
  split
  · rename_i hnone
    rw [h] at hnone
    exact absurd hnone (by simp)
  · rename_i tag' rem' hsome
    rw [h] at hsome
    simp only [Option.some.injEq, Prod.mk.injEq] at hsome
    rw [hsome.1, hsome.2]

/-- Evaluation of the scanning loop of parseImages when there is no match. -/
theorem scanImgs_none {cs : List Char} (h : findImgTag cs = none) :
    scanImgs cs = [] := by
  rw [scanImgs]
  split
  · rfl
  · rename_i tag' rem' hsome
    rw [h] at hsome
    exact absurd hsome (by simp)

/-- Evaluation of the scanning loop of parseImagesMarkdown when the first
extracted pair is known. -/
theorem scanMd_some {cs : List Char} {p : List Char × List Char}
    {rem : List Char} (h : findMd cs = some (p, rem)) :
    scanMd cs = p :: scanMd rem := by
  rw [scanMd]
  split
  · rename_i hnone
    rw [h] at hnone
    exact absurd hnone (by simp)
  · rename_i p' rem' hsome
    rw [h] at hsome
    simp only [Option.some.injEq, Prod.mk.injEq] at hsome
    rw [hsome.1, hsome.2]

/-- Evaluation of the scanning loop of parseImagesMarkdown when there is no
further pair. -/
theorem scanMd_none {cs : List Char} (h : findMd cs = none) :
    scanMd cs = [] := by
  rw [scanMd]
  split
  · rfl
  · rename_i p' rem' hsome
    rw [h] at hsome
    exact absurd hsome (by simp)

/-- A whitespace-free source that does not start with '<' survives
extractSrc unchanged. -/
theorem extractSrc_plain (U : List Char) (hws : ∀ c ∈ U, jsWs c = false)
    (hlt : U.head? ≠ some '<') : extractSrc U = U := by
  unfold extractSrc
  rw [trimChars_no_ws hws, if_neg hlt]
  exact takeWhile_all fun c hc => by
    rw [Bool.not_eq_true', hws c hc]

/-- The canonical markdown image is extracted as the (label, source) pair
with nothing left over. -/
theorem findMd_mdInput (A U : List Char)
    (hesc : noUnescClose '[' A = true) (hbs : A.getLastD '[' ≠ '\\')
    (hop : '(' ∉ U) (hcp : ')' ∉ U)
    (hws : ∀ c ∈ U, jsWs c = false) (hlt : U.head? ≠ some '<') :
    findMd (mdInput A U) = some ((A, U), []) := by
  rw [mdInput, findMd, readLabel_through _ hesc hbs]
  split
  · rename_i heq
    exact absurd heq (by simp)
  · rename_i lab afterBr heq
    simp only [Option.some.injEq, Prod.mk.injEq] at heq
    obtain ⟨h1, h2⟩ := heq
    subst h1
    subst h2
    rw [dropWhile_cons_false (by decide)]
    split
    · rename_i afterParen heq2
      injection heq2 with h3 h4
      subst h4
      rw [readParens_through [] hop hcp]
      split
      · rename_i hnone
        exact absurd hnone (by simp)
      · rename_i inner rem hsome
        simp only [Option.some.injEq, Prod.mk.injEq] at hsome
        rw [← hsome.1, ← hsome.2, extractSrc_plain U hws hlt]
    · rename_i hne
      exact absurd rfl (hne (U ++ [')']))

/-- parseImages on the canonical tag document yields exactly the shared
record built from the label and the source. -/
theorem parseImages_tagInput (A U : List Char) (hA : A ≠ []) (hqA : '"' ∉ A)
    (hgA : '>' ∉ A) (hsf : srcFree A = true)
    (hU : U ≠ []) (hqU : '"' ∉ U) (hgU : '>' ∉ U) :
    parseImages ⟨tagInput A U⟩ = [mkImage A U] := by
  have hscan : scanImgs (tagInput A U) = [tagInput A U] := by
    rw [scanImgs_some (findImgTag_tagInput A U hgA hgU),
      scanImgs_none (show findImgTag [] = none from rfl)]
  have ht : tagRecord (tagInput A U) = some (mkImage A U) := by
    rw [tagRecord, scanAttr_alt_tagInput A U hA hqA,
      scanAttr_src_tagInput A U hqA hsf hU hqU]
  show sortByOrder ((scanImgs (String.mk (tagInput A U)).data).filterMap
    tagRecord) = [mkImage A U]
  rw [show (String.mk (tagInput A U)).data = tagInput A U from rfl, hscan]
  simp [ht, sortByOrder, List.insertionSort, List.orderedInsert]

/-- parseImagesMarkdown on the canonical markdown document yields exactly
the shared record built from the label and the source. -/
theorem parseImagesMarkdown_mdInput (A U : List Char) (hA : A ≠ [])
    (hesc : noUnescClose '[' A = true) (hbs : A.getLastD '[' ≠ '\\')
    (hU : U ≠ []) (hop : '(' ∉ U) (hcp : ')' ∉ U)
    (hws : ∀ c ∈ U, jsWs c = false) (hlt : U.head? ≠ some '<') :
    parseImagesMarkdown ⟨mdInput A U⟩ = [mkImage A U] := by
  have hscan : scanMd (mdInput A U) = [(A, U)] := by
    rw [scanMd_some (findMd_mdInput A U hesc hbs hop hcp hws hlt),
      scanMd_none (show findMd [] = none from rfl)]
  show sortByOrder ((scanMd (String.mk (mdInput A U)).data).filterMap
    fun p => if p.1 ≠ [] ∧ p.2 ≠ [] then some (mkImage p.1 p.2) else none)
    = [mkImage A U]
  rw [show (String.mk (mdInput A U)).data = mdInput A U from rfl, hscan]
  simp [hA, hU, sortByOrder, List.insertionSort, List.orderedInsert]

/-- C4 counterexample: the claim's conditions allow '>' in the label, but a
'>' inside the alt value truncates the img tag match before the src
attribute, so tag mode extracts nothing while link mode extracts a
record. -/
theorem tagMode_linkMode_counterexample :
    parseImages "<img alt=\"a>b\" src=\"u\">" ≠ parseImagesMarkdown "![a>b](u)" := by
  have h1 : findImgTag "<img alt=\"a>b\" src=\"u\">".data
      = some ("<img alt=\"a>".data, "b\" src=\"u\">".data) := by decide
  have h2 : findImgTag "b\" src=\"u\">".data = none := by decide
  have hTag : parseImages "<img alt=\"a>b\" src=\"u\">" = [] := by
    show sortByOrder ((scanImgs "<img alt=\"a>b\" src=\"u\">".data).filterMap
      tagRecord) = []
    rw [scanImgs_some h1, scanImgs_none h2]
    decide
  have h3 : findMd "![a>b](u)".data = some (("a>b".data, "u".data), []) := by
    decide
  have hMd : parseImagesMarkdown "![a>b](u)"
      = [mkImage "a>b".data "u".data] := by
    show sortByOrder ((scanMd "![a>b](u)".data).filterMap
      fun p => if p.1 ≠ [] ∧ p.2 ≠ [] then some (mkImage p.1 p.2) else none)
      = [mkImage "a>b".data "u".data]
    rw [scanMd_some h3, scanMd_none (show findMd [] = none from rfl)]
    decide
  rw [hTag, hMd]
  decide

/-- C4: for a non-empty label A with no '"', no '>', no unescaped ']', no
trailing backslash and no length-four suffix matching "src="
case-insensitively, and a non-empty source U free of whitespace, '"', '>',
parentheses and a leading '<', tag-mode extraction of <img alt="A" src="U">
and link-mode extraction of ![A](U) produce identical ImageRecord values;
in particular with A = "1. Feature_1_before" both yield the record
{alt: "Feature 1", src: U, timing: before, order: 1}. -/
theorem tagMode_linkMode_equiv (A U : List Char)
    (hA : A ≠ []) (hqA : '"' ∉ A) (hgA : '>' ∉ A)
    (hesc : noUnescClose '[' A = true) (hbs : A.getLastD '[' ≠ '\\')
    (hsf : srcFree A = true)
    (hU : U ≠ []) (hws : ∀ c ∈ U, jsWs c = false)
    (hqU : '"' ∉ U) (hgU : '>' ∉ U) (hop : '(' ∉ U) (hcp : ')' ∉ U)
    (hlt : U.head? ≠ some '<') :
    parseImages ⟨tagInput A U⟩ = parseImagesMarkdown ⟨mdInput A U⟩ ∧
    parseImages ⟨tagInput "1. Feature_1_before".data U⟩ =
      [⟨"Feature 1", ⟨U⟩, "Feature 1", Timing.before, 1⟩] := by
  constructor
  · rw [parseImages_tagInput A U hA hqA hgA hsf hU hqU hgU,
      parseImagesMarkdown_mdInput A U hA hesc hbs hU hop hcp hws hlt]
  · rw [parseImages_tagInput "1. Feature_1_before".data U (by decide)
      (by decide) (by decide) (by decide) hU hqU hgU]
    have hp : parseFilename ⟨"1. Feature_1_before".data⟩
        = ⟨1, Timing.before, "Feature 1"⟩ := by decide
    simp [mkImage, hp]

/-- C4 witness: the amended equivalence applied at the documented example
label and the source "u". -/
theorem tagMode_linkMode_equiv_witness :
    parseImages ⟨tagInput "1. Feature_1_before".data "u".data⟩ =
        parseImagesMarkdown ⟨mdInput "1. Feature_1_before".data "u".data⟩ ∧
      parseImages ⟨tagInput "1. Feature_1_before".data "u".data⟩ =
        [⟨"Feature 1", ⟨"u".data⟩, "Feature 1", Timing.before, 1⟩] :=
  tagMode_linkMode_equiv "1. Feature_1_before".data "u".data (by decide)
    (by decide) (by decide) (by decide) (by decide) (by decide) (by decide)
    (by decide) (by decide) (by decide) (by decide) (by decide) (by decide)

end PRParser
